import Mathlib

/-! BlindQuarter: multi-scale Turing patterns.

A shallow embedding of `src/blind_quarter.cpp` (`normalize`,
`blind_quarter_step`, `blind_quarter_init_image`) and of the pattern-set
handling of `src/main.cpp` (`handle_event`), with the properties of the
specification stated over it.

Conventions of the embedding.

* `float_t` values are exact rationals: rounding and overflow are not modelled, except in
  `normalize_float`, which rounds every subtraction and division to binary32.
* A buffer (`float_t*`, `uint32_t*`, `const struct pattern*`) is a function from
  the index to the stored value; a loop `for (k = 0; k < N; k++)` is a
  recursive function giving the state after `k` iterations.
* A floating-point division whose divisor is zero has no rational value
  (IEEE 754 gives NaN for `0/0`, an infinity otherwise): `fdiv` returns `none`
  there, and a function that divides returns an `Option`.
* `new T[w*h]` yields a buffer of indeterminate contents: the initial contents
  of `var` and `best_scale` are the arguments `var0` and `bs0`.
* `blur` (declared in `blur.h`) is an argument of the step.
-/

namespace BlindQuarter

/-! ## Constants of `<cfloat>` and sizes -/

/-- Smallest positive normal `float`, `2^-126`. -/
def FLT_MIN : ℚ := 1 / 2 ^ 126

/-- Largest finite `float`, `(2^24 - 1) * 2^104`. -/
def FLT_MAX : ℚ := (2 ^ 24 - 1) * 2 ^ 104

/-- The `size_t` product `w*h` (64-bit, wrapping) that sizes every buffer and bounds every
pixel loop. -/
def npix (w h : ℕ) : ℕ := (w * h) % 2 ^ 64

/-- Floating-point division: no rational value when the divisor is zero. -/
def fdiv (a b : ℚ) : Option ℚ := if b = 0 then none else some (a / b)

/-! ## `normalize` -/

/-- First loop of `normalize` (lines 95-105): the pair `(max, min)` after `k` iterations,
starting from `max = FLT_MIN`, `min = FLT_MAX`. -/
def normalize_scan (im : ℕ → ℚ) : ℕ → ℚ × ℚ
  | 0 => (FLT_MIN, FLT_MAX)
  | k + 1 =>
    let s := normalize_scan im k
    (if im k > s.1 then im k else s.1, if im k < s.2 then im k else s.2)

/-- Second loop of `normalize` (lines 108-111): the image after `k` iterations of
`im[i] = (im[i] - min)/range`. -/
def normalize_rescale (mn range : ℚ) (im : ℕ → ℚ) : ℕ → Option (ℕ → ℚ)
  | 0 => some im
  | k + 1 =>
    (normalize_rescale mn range im k).bind fun im1 =>
      (fdiv (im1 k - mn) range).map fun q => Function.update im1 k q

/-- The function `normalize(w, h, im)`: the image it leaves in `im`. -/
def normalize (w h : ℕ) (im : ℕ → ℚ) : Option (ℕ → ℚ) :=
  let s := normalize_scan im (npix w h)
  let range := s.1 - s.2
  normalize_rescale s.2 range im (npix w h)

/-! ## `blind_quarter_step` -/

/-- The fields of `struct pattern` (`pattern.h`) read by the step, with the symmetry order
passed to the `Pattern` constructor in `main.cpp`. -/
structure pattern where
  act_r : ℕ
  inh_r : ℕ
  wt : ℕ
  sym : ℕ
  sa : ℚ
  deriving DecidableEq

/-- Pixel loop of one scale (lines 49-62): `(var, best_scale)` after `k` pixels of scale `i`,
given that scale's blurred arrays `act` and `inh`. -/
def pixel_loop (act inh : ℕ → ℚ) (i : ℕ) (var : ℕ → ℚ) (best_scale : ℕ → ℕ) :
    ℕ → (ℕ → ℚ) × (ℕ → ℕ)
  | 0 => (var, best_scale)
  | k + 1 =>
    let s := pixel_loop act inh i var best_scale k
    let var_new := act k - inh k
    if |var_new| < |s.1 k| ∨ i = 0 then
      (Function.update s.1 k var_new, Function.update s.2 k i)
    else s

/-- Scale loop (lines 42-63): `(var, best_scale)` after the first `k` scales. Both blurs read
`im`, which the loop does not write. The index stored in the `uint32_t` cell is below
`n`, itself a `uint32_t`, so the store does not truncate. -/
def scale_loop (blur : ℕ → ℕ → ℕ → ℕ → (ℕ → ℚ) → (ℕ → ℚ)) (p : ℕ → pattern) (w h : ℕ)
    (im : ℕ → ℚ) (var0 : ℕ → ℚ) (bs0 : ℕ → ℕ) : ℕ → (ℕ → ℚ) × (ℕ → ℕ)
  | 0 => (var0, bs0)
  | k + 1 =>
    let s := scale_loop blur p w h im var0 bs0 k
    let act := blur w h (p k).act_r (p k).wt im
    let inh := blur w h (p k).inh_r (p k).wt im
    pixel_loop act inh k s.1 s.2 (npix w h)

/-- Adjustment loop (lines 70-80): the image after `k` pixels. -/
def adjust_loop (p : ℕ → pattern) (var : ℕ → ℚ) (best_scale : ℕ → ℕ) (im : ℕ → ℚ) :
    ℕ → (ℕ → ℚ)
  | 0 => im
  | k + 1 =>
    let im1 := adjust_loop p var best_scale im k
    if var k > 0 then Function.update im1 k (im1 k + (p (best_scale k)).sa)
    else Function.update im1 k (im1 k - (p (best_scale k)).sa)

/-- The image held by `im` in `blind_quarter_step` right before the call of `normalize`
(lines 35-83). -/
def blind_quarter_update (blur : ℕ → ℕ → ℕ → ℕ → (ℕ → ℚ) → (ℕ → ℚ)) (p : ℕ → pattern)
    (n w h : ℕ) (im : ℕ → ℚ) (var0 : ℕ → ℚ) (bs0 : ℕ → ℕ) : ℕ → ℚ :=
  let s := scale_loop blur p w h im var0 bs0 n
  adjust_loop p s.1 s.2 im (npix w h)

/-- The function `blind_quarter_step(p, n, w, h, im)`: the image it leaves in `im`. -/
def blind_quarter_step (blur : ℕ → ℕ → ℕ → ℕ → (ℕ → ℚ) → (ℕ → ℚ)) (p : ℕ → pattern)
    (n w h : ℕ) (im : ℕ → ℚ) (var0 : ℕ → ℚ) (bs0 : ℕ → ℕ) : Option (ℕ → ℚ) :=
  normalize w h (blind_quarter_update blur p n w h im var0 bs0)

/-- The difference `act[j] - inh[j]` of the two blurs of `im` at the radii of scale `i`. -/
def variation (blur : ℕ → ℕ → ℕ → ℕ → (ℕ → ℚ) → (ℕ → ℚ)) (p : ℕ → pattern) (w h : ℕ)
    (im : ℕ → ℚ) (i j : ℕ) : ℚ :=
  blur w h (p i).act_r (p i).wt im j - blur w h (p i).inh_r (p i).wt im j

/-! ## `blind_quarter_init_image` -/

/-- Fill loop of `blind_quarter_init_image` (lines 26-29): image and generator state after
`k` pixels. `rand` maps a generator state to the drawn value and the next state. -/
def init_loop (rand : ℕ → ℕ × ℕ) (RAND_MAX : ℕ) (im : ℕ → ℚ) (g : ℕ) : ℕ → (ℕ → ℚ) × ℕ
  | 0 => (im, g)
  | k + 1 =>
    let s := init_loop rand RAND_MAX im g k
    let r := rand s.2
    (Function.update s.1 k ((r.1 : ℚ) / (RAND_MAX : ℚ)), r.2)

/-- The function `blind_quarter_init_image(w, h, im)`, run at clock value `now` with the
generator in state `g`: `srand(time(NULL))` puts the generator in the state of seed
`now`, then every pixel is drawn. Returns the image and the generator state. -/
def blind_quarter_init_image (rand : ℕ → ℕ × ℕ) (RAND_MAX : ℕ) (now : ℕ) (w h : ℕ)
    (im : ℕ → ℚ) (_g : ℕ) : (ℕ → ℚ) × ℕ :=
  init_loop rand RAND_MAX im now (npix w h)

/-! ## Pattern set and events (`main.cpp`) -/

def N_PATTERNS_MAX : ℕ := 5
def N_PATTERNS_MIN : ℕ := 1
def N_PATTERNS_START : ℕ := 1

/-- Activator radii. -/
def act_r_all : List ℕ := [50, 25, 10, 5, 1]
/-- Inhibitor radii. -/
def inh_r_all : List ℕ := [100, 50, 20, 10, 2]
/-- Weights. -/
def wt_all : List ℕ := [1, 1, 1, 1, 1]
/-- Symmetry orders. -/
def sym_all : List ℕ := [2, 1, 4, 1, 1]
/-- Small amounts. -/
def sa_all : List ℚ := [5 / 100, 4 / 100, 3 / 100, 2 / 100, 1 / 100]

/-- The constructor call `Pattern(act_r, inh_r, wt, sym, sa)`. -/
def Pattern (act_r inh_r wt sym : ℕ) (sa : ℚ) : pattern := ⟨act_r, inh_r, wt, sym, sa⟩

/-- Row `i` of the parameter tables as built at both `push_back` sites. -/
def table_row (i : ℕ) : pattern :=
  Pattern (act_r_all.getD i 0) (inh_r_all.getD i 0) (wt_all.getD i 0) (sym_all.getD i 0)
    (sa_all.getD i 0)

/-- The event types `handle_event` switches on. -/
inductive EventType
  | SDL_QUIT
  | SDL_MOUSEBUTTONDOWN
  | SDL_KEYDOWN
  | other
  deriving DecidableEq

/-- The key codes `handle_event` compares with. -/
inductive SDL_Keycode
  | SDLK_KP_PLUS
  | SDLK_KP_MINUS
  | other
  deriving DecidableEq

/-- The fields of `SDL_Event` read by `handle_event`. -/
structure SDL_Event where
  type : EventType
  key : SDL_Keycode

/-- The globals of `main.cpp` and the state of the C library generator. -/
structure State where
  width : ℕ
  height : ℕ
  image : ℕ → ℚ
  patterns : List pattern
  rng : ℕ

/-- The function `handle_event(event)`, run at clock value `now`: the returned `quit` flag and
the globals afterwards. -/
def handle_event (rand : ℕ → ℕ × ℕ) (RAND_MAX : ℕ) (now : ℕ) (event : SDL_Event)
    (s : State) : Bool × State :=
  match event.type with
  | EventType.SDL_QUIT => (true, s)
  | EventType.SDL_MOUSEBUTTONDOWN =>
    let r := blind_quarter_init_image rand RAND_MAX now s.width s.height s.image s.rng
    (false, { s with image := r.1, rng := r.2 })
  | EventType.SDL_KEYDOWN =>
    let key := event.key
    if key = SDL_Keycode.SDLK_KP_PLUS ∧ s.patterns.length < N_PATTERNS_MAX then
      let i := s.patterns.length
      (false, { s with patterns := s.patterns ++ [table_row i] })
    else if key = SDL_Keycode.SDLK_KP_MINUS ∧ s.patterns.length > N_PATTERNS_MIN then
      (false, { s with patterns := s.patterns.dropLast })
    else (false, s)
  | EventType.other => (false, s)

/-- The add-scale request: key-down of keypad plus. -/
def add_request : SDL_Event := ⟨EventType.SDL_KEYDOWN, SDL_Keycode.SDLK_KP_PLUS⟩

/-- The remove-scale request: key-down of keypad minus. -/
def remove_request : SDL_Event := ⟨EventType.SDL_KEYDOWN, SDL_Keycode.SDLK_KP_MINUS⟩

/-- The pattern set built by the start-up loop of `main` (lines 85-89). -/
def initial_patterns : List pattern := (List.range N_PATTERNS_START).map table_row

/-! ## Concrete inputs -/

/-- Image buffer holding the listed pixels (zero past the end). -/
def ofList (l : List ℚ) : ℕ → ℚ := fun j => l.getD j 0

/-- The first `k` pixels of a buffer. -/
def pixels (im : ℕ → ℚ) (k : ℕ) : List ℚ := (List.range k).map im

/-- A stand-in for the blur of `blur.h`: every pixel multiplied by the radius. -/
def demo_blur : ℕ → ℕ → ℕ → ℕ → (ℕ → ℚ) → (ℕ → ℚ) :=
  fun _ _ r _ im j => (r : ℚ) * im j

/-- Two scales whose variations under `demo_blur` are `2 * im[j]` and `im[j]`. -/
def demo_scales : ℕ → pattern :=
  fun i => if i = 0 then Pattern 3 1 1 1 (1 / 20) else Pattern 2 1 1 1 (1 / 25)

/-- Scales that all have the variation `im[j]` under `demo_blur`. -/
def tied_scales : ℕ → pattern := fun _ => Pattern 2 1 1 1 (1 / 20)

/-- One scale whose activator radius equals its inhibitor radius, step amount 0.05. -/
def equal_radius_scale : ℕ → pattern := fun _ => Pattern 3 3 1 1 (1 / 20)

/-- Globals with the given pattern set, a 100 x 100 image of zeros. -/
def state_with (ps : List pattern) : State := ⟨100, 100, fun _ => 0, ps, 0⟩

/-- A generator that always draws 0. -/
def demo_rand : ℕ → ℕ × ℕ := fun g => (0, g)

/-! ## Event sequences -/

/-- The globals after `main` has handled the listed events in order, each paired with the
clock value at which it is handled. -/
def run_events (rand : ℕ → ℕ × ℕ) (RAND_MAX : ℕ) : List (ℕ × SDL_Event) → State → State
  | [], s => s
  | e :: es, s => run_events rand RAND_MAX es (handle_event rand RAND_MAX e.1 e.2 s).2

/-- The globals when the event loop of `main` starts: the pattern set of the start-up loop,
whatever the dimensions, the image and the generator state. -/
def initial_state (w h : ℕ) (im : ℕ → ℚ) (g : ℕ) : State := ⟨w, h, im, initial_patterns, g⟩

/-- The reset request: a mouse button press. -/
def reset_request : SDL_Event := ⟨EventType.SDL_MOUSEBUTTONDOWN, SDL_Keycode.other⟩

/-! ## The scale loop over the whole memory of the step -/

/-- The five buffers `blind_quarter_step` works on. -/
structure StepMem where
  im : ℕ → ℚ
  act : ℕ → ℚ
  inh : ℕ → ℚ
  var : ℕ → ℚ
  best_scale : ℕ → ℕ

/-- Pixel loop of scale `i` (lines 49-62) as a transformation of all five buffers. -/
def pixel_loop_mem (i : ℕ) (m : StepMem) : ℕ → StepMem
  | 0 => m
  | k + 1 =>
    let s := pixel_loop_mem i m k
    let var_new := s.act k - s.inh k
    if |var_new| < |s.var k| ∨ i = 0 then
      { s with var := Function.update s.var k var_new,
               best_scale := Function.update s.best_scale k i }
    else s

/-- Scale loop (lines 42-63) as a transformation of all five buffers, together with the list
of the image arguments handed to `blur`, in call order. Each call reads the `im` buffer
in its state at the time of the call and writes `act` or `inh`. -/
def scale_loop_mem (blur : ℕ → ℕ → ℕ → ℕ → (ℕ → ℚ) → (ℕ → ℚ)) (p : ℕ → pattern) (w h : ℕ)
    (m : StepMem) : ℕ → StepMem × List (ℕ → ℚ)
  | 0 => (m, [])
  | k + 1 =>
    let s := scale_loop_mem blur p w h m k
    let m1 : StepMem := { s.1 with act := blur w h (p k).act_r (p k).wt s.1.im }
    let m2 : StepMem := { m1 with inh := blur w h (p k).inh_r (p k).wt m1.im }
    (pixel_loop_mem k m2 (npix w h), s.2 ++ [s.1.im, m1.im])

/-! ## `parse_args` and the start of `main` -/

def N_ARGUMENTS : ℤ := 4
def WIDTH_MIN : ℕ := 100
def HEIGHT_MIN : ℕ := 100
def UINT32_MAX : ℕ := 2 ^ 32 - 1

/-- Conversion of a `long` to the 64-bit `size_t`. -/
def to_size_t (v : ℤ) : ℕ := (v % 2 ^ 64).toNat

/-- The function `parse_args(argc, argv, &width, &height, &colors)`: the returned error flag
and the three outputs afterwards. `strtol` maps a string to the parsed `long` and to
whether the end pointer it stores is `NULL`. -/
def parse_args (strtol : String → ℤ × Bool) (argc : ℤ) (argv : List String)
    (width height : ℕ) (colors : String) : Bool × ℕ × ℕ × String :=
  if argc ≠ N_ARGUMENTS then (true, width, height, colors)
  else
    let rw := strtol (argv.getD 1 "")
    let rh := strtol (argv.getD 2 "")
    let width1 := to_size_t rw.1
    let height1 := to_size_t rh.1
    let colors1 := argv.getD 3 ""
    if rw.2 = true ∨ rh.2 = true ∨ width1 < WIDTH_MIN ∨ height1 < HEIGHT_MIN
        ∨ width1 = UINT32_MAX ∨ height1 = UINT32_MAX then
      (true, width1, height1, colors1)
    else (false, width1, height1, colors1)

/-- The start of `main` (lines 74-96), up to the first fill of the image: the exit code 1
when parsing fails, before anything is allocated; otherwise the globals after
`blind_quarter_init_image`. The globals `width` and `height` start at zero, `im0` is
the content of the freshly allocated image and `g` the generator state. -/
def main_init (strtol : String → ℤ × Bool) (rand : ℕ → ℕ × ℕ) (RAND_MAX : ℕ) (now : ℕ)
    (argc : ℤ) (argv : List String) (im0 : ℕ → ℚ) (g : ℕ) : Except ℕ State :=
  let r := parse_args strtol argc argv 0 0 ""
  if r.1 = true then Except.error 1
  else
    let width := r.2.1
    let height := r.2.2.1
    let filled := blind_quarter_init_image rand RAND_MAX now width height im0 g
    Except.ok ⟨width, height, filled.1, initial_patterns, filled.2⟩

/-! ## More concrete inputs -/

/-- A generator that always draws `RAND_MAX = 32767`. -/
def max_rand : ℕ → ℕ × ℕ := fun g => (32767, g)

/-- A generator whose state is a counter and whose draw is the state modulo 32768. -/
def counter_rand : ℕ → ℕ × ℕ := fun g => (g % 32768, g + 1)

/-- A `strtol` that parses every string as 640 and stores a non-null end pointer. -/
def demo_strtol : String → ℤ × Bool := fun _ => (640, false)

/-- Buffers of the step holding zeros apart from the image. -/
def mem_of (im : ℕ → ℚ) : StepMem := ⟨im, fun _ => 0, fun _ => 0, fun _ => 0, fun _ => 0⟩

/-! ## `normalize` with the rounding of `float` -/

/-- Rounding of a rational to the nearest integer, ties to the even integer. -/
def round_half_even (y : ℚ) : ℤ :=
  if y - ⌊y⌋ < 1 / 2 then ⌊y⌋
  else if 1 / 2 < y - ⌊y⌋ then ⌊y⌋ + 1
  else if ⌊y⌋ % 2 = 0 then ⌊y⌋ else ⌊y⌋ + 1

/-- The binary32 exponent used for `x`: the exponent of its binade, and `-126` throughout the
subnormal range. -/
def f32_exp (x : ℚ) : ℤ := max (Int.log 2 |x|) (-126)

/-- The spacing of the binary32 values around `x`: 24 significant bits. -/
def f32_quantum (x : ℚ) : ℚ := 2 ^ (f32_exp x - 23)

/-- Rounding to binary32 (IEEE 754 round to nearest, ties to even) with an unbounded
exponent above. -/
def round_f32 (x : ℚ) : ℚ := (round_half_even (x / f32_quantum x) : ℚ) * f32_quantum x

/-- The `float` result of an operation whose exact result is `x`: the rounded value, or `none`
when it exceeds `FLT_MAX` in magnitude (the operation overflows to an infinity). -/
def float_op (x : ℚ) : Option ℚ :=
  if FLT_MAX < |round_f32 x| then none else some (round_f32 x)

/-- Second loop of `normalize` (lines 108-111) with the subtraction and the division rounded
to `float`: the image after `k` iterations, `none` when a pixel is not a finite number. -/
def normalize_rescale_float (mn range : ℚ) (im : ℕ → ℚ) : ℕ → Option (ℕ → ℚ)
  | 0 => some im
  | k + 1 =>
    (normalize_rescale_float mn range im k).bind fun im1 =>
      (float_op (im1 k - mn)).bind fun d =>
        (if range = 0 then none else float_op (d / range)).map fun q =>
          Function.update im1 k q

/-- The function `normalize(w, h, im)` with `range = max - min` and the rescaling rounded to
`float`. When the range overflows, the pixel that holds the maximum becomes `inf/inf`, so
the result is `none` as well. -/
def normalize_float (w h : ℕ) (im : ℕ → ℚ) : Option (ℕ → ℚ) :=
  let s := normalize_scan im (npix w h)
  (float_op (s.1 - s.2)).bind fun range =>
    normalize_rescale_float s.2 range im (npix w h)

/-- The expression `(float_t)rand()/(float_t)(RAND_MAX)` of line 28 for the draw `r`, with
both conversions and the division rounded to `float`. -/
def init_pixel_float (r RAND_MAX : ℕ) : ℚ :=
  round_f32 (round_f32 (r : ℚ) / round_f32 (RAND_MAX : ℚ))

/-! ## Lemmas on `normalize` -/

theorem FLT_MIN_pos : 0 < FLT_MIN := by
  unfold FLT_MIN; positivity

theorem FLT_MIN_lt_FLT_MAX : FLT_MIN < FLT_MAX := by
  unfold FLT_MIN FLT_MAX; norm_num

theorem normalize_scan_max_ge_FLT_MIN (im : ℕ → ℚ) (k : ℕ) :
    FLT_MIN ≤ (normalize_scan im k).1 := by
  induction k with
  | zero => simp [normalize_scan]
  | succ k ih =>
    simp only [normalize_scan]
    split_ifs with hgt
    · exact le_trans ih (le_of_lt hgt)
    · exact ih

theorem normalize_scan_min_le_FLT_MAX (im : ℕ → ℚ) (k : ℕ) :
    (normalize_scan im k).2 ≤ FLT_MAX := by
  induction k with
  | zero => simp [normalize_scan]
  | succ k ih =>
    simp only [normalize_scan]
    split_ifs with hlt
    · exact le_trans (le_of_lt hlt) ih
    · exact ih

theorem normalize_scan_max_ge (im : ℕ → ℚ) (k j : ℕ) (hj : j < k) :
    im j ≤ (normalize_scan im k).1 := by
  induction k with
  | zero => omega
  | succ k ih =>
    simp only [normalize_scan]
    rcases Nat.lt_succ_iff_lt_or_eq.mp hj with hlt | heq
    · have h1 := ih hlt
      split_ifs with hgt
      · exact le_trans h1 (le_of_lt hgt)
      · exact h1
    · subst heq
      split_ifs with hgt
      · exact le_refl _
      · exact not_lt.mp hgt

theorem normalize_scan_min_le (im : ℕ → ℚ) (k j : ℕ) (hj : j < k) :
    (normalize_scan im k).2 ≤ im j := by
  induction k with
  | zero => omega
  | succ k ih =>
    simp only [normalize_scan]
    rcases Nat.lt_succ_iff_lt_or_eq.mp hj with hlt | heq
    · have h1 := ih hlt
      split_ifs with hgt
      · exact le_trans (le_of_lt hgt) h1
      · exact h1
    · subst heq
      split_ifs with hgt
      · exact le_refl _
      · exact not_lt.mp hgt

theorem normalize_scan_max_attained (im : ℕ → ℚ) (k : ℕ) :
    (normalize_scan im k).1 = FLT_MIN ∨ ∃ j, j < k ∧ (normalize_scan im k).1 = im j := by
  induction k with
  | zero => left; rfl
  | succ k ih =>
    simp only [normalize_scan]
    split_ifs with hgt
    · exact Or.inr ⟨k, Nat.lt_succ_self k, rfl⟩
    · rcases ih with h0 | ⟨j, hj, hm⟩
      · exact Or.inl h0
      · exact Or.inr ⟨j, Nat.lt_succ_of_lt hj, hm⟩

theorem normalize_scan_min_attained (im : ℕ → ℚ) (k : ℕ) :
    (normalize_scan im k).2 = FLT_MAX ∨ ∃ j, j < k ∧ (normalize_scan im k).2 = im j := by
  induction k with
  | zero => left; rfl
  | succ k ih =>
    simp only [normalize_scan]
    split_ifs with hlt
    · exact Or.inr ⟨k, Nat.lt_succ_self k, rfl⟩
    · rcases ih with h0 | ⟨j, hj, hm⟩
      · exact Or.inl h0
      · exact Or.inr ⟨j, Nat.lt_succ_of_lt hj, hm⟩

/-- The range computed by `normalize` on a non-empty image is never negative. -/
theorem normalize_range_nonneg (im : ℕ → ℚ) (k : ℕ) (hk : 0 < k) :
    0 ≤ (normalize_scan im k).1 - (normalize_scan im k).2 := by
  have h1 := normalize_scan_max_ge im k 0 hk
  have h2 := normalize_scan_min_le im k 0 hk
  linarith

/-- With a non-zero range the rescaling loop maps every pixel below `k` to
`(im[j] - min)/range` and leaves the rest of the buffer alone. -/
theorem normalize_rescale_of_ne_zero (mn range : ℚ) (im : ℕ → ℚ) (k : ℕ) (hr : range ≠ 0) :
    normalize_rescale mn range im k
      = some (fun j => if j < k then (im j - mn) / range else im j) := by
  induction k with
  | zero => simp [normalize_rescale]
  | succ k ih =>
    simp only [normalize_rescale, ih, Option.some_bind, fdiv, if_neg hr, Option.map_some']
    congr 1
    funext j
    by_cases hjk : j = k
    · subst hjk
      simp
    · rw [Function.update_noteq hjk]
      by_cases hlt : j < k
      · simp [hlt, Nat.lt_succ_of_lt hlt]
      · have : ¬ j < k + 1 := by omega
        simp [hlt, this]

/-- With a zero range the first division already has no value. -/
theorem normalize_rescale_zero (mn : ℚ) (im : ℕ → ℚ) (k : ℕ) (hk : 0 < k) :
    normalize_rescale mn 0 im k = none := by
  induction k with
  | zero => omega
  | succ k ih =>
    simp only [normalize_rescale]
    cases hres : normalize_rescale mn 0 im k with
    | none => rfl
    | some im1 => simp [fdiv]

/-- The image `normalize` returns when its range is not zero. -/
theorem normalize_of_range_ne_zero (w h : ℕ) (im : ℕ → ℚ)
    (hr : (normalize_scan im (npix w h)).1 - (normalize_scan im (npix w h)).2 ≠ 0) :
    normalize w h im = some (fun j =>
      if j < npix w h then
        (im j - (normalize_scan im (npix w h)).2)
          / ((normalize_scan im (npix w h)).1 - (normalize_scan im (npix w h)).2)
      else im j) := by
  unfold normalize
  exact normalize_rescale_of_ne_zero _ _ im _ hr

/-- The result of `normalize` has no value when the range is zero on a non-empty image. -/
theorem normalize_of_range_zero (w h : ℕ) (im : ℕ → ℚ) (hk : 0 < npix w h)
    (hr : (normalize_scan im (npix w h)).1 - (normalize_scan im (npix w h)).2 = 0) :
    normalize w h im = none := by
  unfold normalize
  simp only [hr]
  exact normalize_rescale_zero _ im _ hk

/-- The scan reads only the pixels below `k`. -/
theorem normalize_scan_congr (im im1 : ℕ → ℚ) (k : ℕ) (heq : ∀ j, j < k → im j = im1 j) :
    normalize_scan im k = normalize_scan im1 k := by
  induction k with
  | zero => rfl
  | succ k ih =>
    simp only [normalize_scan, ih (fun j hj => heq j (Nat.lt_succ_of_lt hj)),
      heq k (Nat.lt_succ_self k)]

/-- On a non-empty image whose pixels all equal `c`, with `FLT_MIN ≤ c ≤ FLT_MAX`, the scan
ends with `max = min = c`. -/
theorem normalize_scan_uniform (im : ℕ → ℚ) (k : ℕ) (c : ℚ) (hk : 0 < k)
    (hu : ∀ j, j < k → im j = c) (h1 : FLT_MIN ≤ c) (h2 : c ≤ FLT_MAX) :
    normalize_scan im k = (c, c) := by
  induction k with
  | zero => omega
  | succ k ih =>
    have hck : im k = c := hu k (Nat.lt_succ_self k)
    rcases Nat.eq_zero_or_pos k with h0 | hpos
    · subst h0
      have ha : (if c > FLT_MIN then c else FLT_MIN) = c := by
        split_ifs with hgt
        · rfl
        · exact le_antisymm h1 (not_lt.mp hgt)
      have hb : (if c < FLT_MAX then c else FLT_MAX) = c := by
        split_ifs with hlt
        · rfl
        · exact le_antisymm (not_lt.mp hlt) h2
      simp only [normalize_scan, hck, ha, hb]
    · have ih1 := ih hpos (fun j hj => hu j (Nat.lt_succ_of_lt hj))
      simp [normalize_scan, ih1, hck]

/-- On a non-empty image whose pixels all equal `c`, with `FLT_MIN ≤ c ≤ FLT_MAX`, the
range is zero and `normalize` returns no image. -/
theorem normalize_uniform_none (w h : ℕ) (im : ℕ → ℚ) (c : ℚ) (hk : 0 < npix w h)
    (hu : ∀ j, j < npix w h → im j = c) (h1 : FLT_MIN ≤ c) (h2 : c ≤ FLT_MAX) :
    normalize w h im = none := by
  apply normalize_of_range_zero w h im hk
  rw [normalize_scan_uniform im (npix w h) c hk hu h1 h2]
  simp

/-- Whenever two pixels of the image differ strictly, `normalize` returns an image and
the strict order of the two pixels is kept. -/
theorem normalize_strict_order (w h : ℕ) (im : ℕ → ℚ) (a b : ℕ) (ha : a < npix w h)
    (hb : b < npix w h) (hab : im a < im b) :
    ∃ out, normalize w h im = some out ∧ out a < out b := by
  have h1 := normalize_scan_max_ge im (npix w h) b hb
  have h2 := normalize_scan_min_le im (npix w h) a ha
  have hpos : 0 < (normalize_scan im (npix w h)).1 - (normalize_scan im (npix w h)).2 := by
    linarith
  refine ⟨_, normalize_of_range_ne_zero w h im (ne_of_gt hpos), ?_⟩
  simp only [ha, hb, if_true]
  exact div_lt_div_of_pos_right (by linarith) hpos

/-- Whenever the range is not zero, equal pixels stay equal under `normalize`. -/
theorem normalize_equal_pixels (w h : ℕ) (im : ℕ → ℚ) (a b : ℕ) (ha : a < npix w h)
    (hb : b < npix w h) (hab : im a = im b)
    (hr : (normalize_scan im (npix w h)).1 - (normalize_scan im (npix w h)).2 ≠ 0) :
    ∃ out, normalize w h im = some out ∧ out a = out b := by
  refine ⟨_, normalize_of_range_ne_zero w h im hr, ?_⟩
  simp only [ha, hb, if_true, hab]

/-! ## `normalize` on concrete images -/

theorem npix_2_1 : npix 2 1 = 2 := by norm_num [npix]

theorem npix_1_1 : npix 1 1 = 1 := by norm_num [npix]

/-- C1. On the two-pixel image `[-1, -1/2]`, which is not uniform, `normalize` leaves
`[0, (1/2)/(1 + FLT_MIN)]`: the running maximum stays at its start value `FLT_MIN`, above
both pixels, and the largest pixel of the result is below 1. -/
theorem normalize_negative_image_max_lt_one :
    (normalize 2 1 (ofList [-1, -1 / 2])).map (fun out => pixels out 2)
        = some [0, (1 / 2) / (1 + FLT_MIN)]
      ∧ (1 / 2) / (1 + FLT_MIN) < 1 := by
  have hs : normalize_scan (ofList [-1, -1 / 2]) 2 = (FLT_MIN, -1) := by
    norm_num [normalize_scan, ofList, FLT_MIN, FLT_MAX]
  have hr : (normalize_scan (ofList [-1, -1 / 2]) (npix 2 1)).1
      - (normalize_scan (ofList [-1, -1 / 2]) (npix 2 1)).2 ≠ 0 := by
    rw [npix_2_1, hs]; norm_num [FLT_MIN]
  constructor
  · rw [normalize_of_range_ne_zero 2 1 _ hr, npix_2_1, hs]
    norm_num [pixels, List.range_succ, ofList, FLT_MIN]
  · norm_num [FLT_MIN]

/-- C5. On the one-pixel image `[1/2]` the range is `1/2 - 1/2 = 0` and the division
`(im[0] - min)/range` has no value; on the one-pixel image `[-1]` the range is
`FLT_MIN + 1` and the pixel becomes `0`, not `-1`. -/
theorem normalize_uniform_image :
    normalize 1 1 (ofList [1 / 2]) = none
      ∧ (normalize 1 1 (ofList [-1])).map (fun out => pixels out 1) = some [0] := by
  constructor
  · apply normalize_of_range_zero
    · norm_num [npix]
    · norm_num [npix_1_1, normalize_scan, ofList, FLT_MIN, FLT_MAX]
  · have hs : normalize_scan (ofList [-1]) 1 = (FLT_MIN, -1) := by
      norm_num [normalize_scan, ofList, FLT_MIN, FLT_MAX]
    have hr : (normalize_scan (ofList [-1]) (npix 1 1)).1
        - (normalize_scan (ofList [-1]) (npix 1 1)).2 ≠ 0 := by
      rw [npix_1_1, hs]; norm_num [FLT_MIN]
    rw [normalize_of_range_ne_zero 1 1 _ hr, npix_1_1, hs]
    norm_num [pixels, List.range_succ, ofList]

/-- C8. On the two-pixel image `[3/4, 3/4]` pixels 0 and 1 are equal before `normalize`;
the range is zero, so `normalize` returns no image in which they could be equal. -/
theorem normalize_equal_pair_no_value :
    ofList [3 / 4, 3 / 4] 0 = ofList [3 / 4, 3 / 4] 1
      ∧ ¬ ∃ out, normalize 2 1 (ofList [3 / 4, 3 / 4]) = some out ∧ out 0 = out 1 := by
  have hn : normalize 2 1 (ofList [3 / 4, 3 / 4]) = none := by
    apply normalize_of_range_zero
    · norm_num [npix]
    · norm_num [npix_2_1, normalize_scan, ofList, FLT_MIN, FLT_MAX]
  constructor
  · norm_num [ofList]
  · rintro ⟨out, hout, -⟩
    rw [hn] at hout
    exact Option.noConfusion hout

/-- C9. On the two-pixel image `[-2, -1]` a first `normalize` leaves
`[0, 1/(2 + FLT_MIN)]` and a second one leaves `[0, 1]`: the two differ at pixel 1. -/
theorem normalize_twice_differs :
    (normalize 2 1 (ofList [-2, -1])).map (fun out => pixels out 2)
        = some [0, 1 / (2 + FLT_MIN)]
      ∧ ((normalize 2 1 (ofList [-2, -1])).bind (normalize 2 1)).map (fun out => pixels out 2)
        = some [0, 1]
      ∧ 1 / (2 + FLT_MIN) ≠ 1 := by
  have hs : normalize_scan (ofList [-2, -1]) 2 = (FLT_MIN, -2) := by
    norm_num [normalize_scan, ofList, FLT_MIN, FLT_MAX]
  have hr : (normalize_scan (ofList [-2, -1]) (npix 2 1)).1
      - (normalize_scan (ofList [-2, -1]) (npix 2 1)).2 ≠ 0 := by
    rw [npix_2_1, hs]; norm_num [FLT_MIN]
  have h1 := normalize_of_range_ne_zero 2 1 _ hr
  rw [npix_2_1, hs] at h1
  have hs2 : normalize_scan (fun j => if j < 2 then (ofList [-2, -1] j - -2) / (FLT_MIN - -2)
      else ofList [-2, -1] j) 2 = (1 / (2 + FLT_MIN), 0) := by
    norm_num [normalize_scan, ofList, FLT_MIN, FLT_MAX]
  have hr2 : (normalize_scan (fun j => if j < 2 then (ofList [-2, -1] j - -2) / (FLT_MIN - -2)
      else ofList [-2, -1] j) (npix 2 1)).1
      - (normalize_scan (fun j => if j < 2 then (ofList [-2, -1] j - -2) / (FLT_MIN - -2)
      else ofList [-2, -1] j) (npix 2 1)).2 ≠ 0 := by
    rw [npix_2_1, hs2]; norm_num [FLT_MIN]
  refine ⟨?_, ?_, ?_⟩
  · rw [h1]
    norm_num [pixels, List.range_succ, ofList, FLT_MIN]
  · rw [h1, Option.some_bind, normalize_of_range_ne_zero 2 1 _ hr2, npix_2_1, hs2]
    norm_num [pixels, List.range_succ, ofList, FLT_MIN]
  · norm_num [FLT_MIN]

/-! ## The scale loop -/

/-- Closed form of the pixel loop of scale `i`: pixel `j` is overwritten exactly when it has
been visited and the new magnitude is strictly smaller or the scale is the first. -/
theorem pixel_loop_apply (act inh : ℕ → ℚ) (i : ℕ) (var : ℕ → ℚ) (bs : ℕ → ℕ) (k j : ℕ) :
    (pixel_loop act inh i var bs k).1 j
        = (if j < k ∧ (|act j - inh j| < |var j| ∨ i = 0) then act j - inh j else var j)
      ∧ (pixel_loop act inh i var bs k).2 j
        = (if j < k ∧ (|act j - inh j| < |var j| ∨ i = 0) then i else bs j) := by
  induction k generalizing j with
  | zero => simp [pixel_loop]
  | succ k ih =>
    have hk := ih k
    simp only [lt_irrefl, false_and, if_false] at hk
    simp only [pixel_loop, hk.1]
    by_cases hjk : j = k
    · subst hjk
      by_cases hc : |act j - inh j| < |var j| ∨ i = 0
      · simp [hc]
      · simp only [if_neg hc, hk.1, hk.2]
        simp [hc]
    · have hiff : j < k + 1 ↔ j < k := by omega
      by_cases hc : |act k - inh k| < |var k| ∨ i = 0
      · simp only [if_pos hc, Function.update_noteq hjk, (ih j).1, (ih j).2, hiff]
        exact ⟨trivial, trivial⟩
      · simp only [if_neg hc, (ih j).1, (ih j).2, hiff]
        exact ⟨trivial, trivial⟩

/-- Invariant of the scale loop at a pixel `j` of the image, after `k + 1` scales: the
recorded scale is one of those processed, the stored variation is the one of the recorded
scale, no processed scale has a smaller magnitude, and every scale before the recorded one
has a strictly larger magnitude. -/
theorem scale_loop_invariant (blur : ℕ → ℕ → ℕ → ℕ → (ℕ → ℚ) → (ℕ → ℚ)) (p : ℕ → pattern)
    (w h : ℕ) (im : ℕ → ℚ) (var0 : ℕ → ℚ) (bs0 : ℕ → ℕ) (j : ℕ) (hj : j < npix w h) (k : ℕ) :
    (scale_loop blur p w h im var0 bs0 (k + 1)).2 j < k + 1
      ∧ (scale_loop blur p w h im var0 bs0 (k + 1)).1 j
          = variation blur p w h im ((scale_loop blur p w h im var0 bs0 (k + 1)).2 j) j
      ∧ (∀ i, i < k + 1 →
          |(scale_loop blur p w h im var0 bs0 (k + 1)).1 j| ≤ |variation blur p w h im i j|)
      ∧ (∀ i, i < (scale_loop blur p w h im var0 bs0 (k + 1)).2 j →
          |(scale_loop blur p w h im var0 bs0 (k + 1)).1 j| < |variation blur p w h im i j|) := by
  induction k with
  | zero =>
    have hp := pixel_loop_apply (blur w h (p 0).act_r (p 0).wt im)
      (blur w h (p 0).inh_r (p 0).wt im) 0 var0 bs0 (npix w h) j
    simp only [hj, true_and, or_true, if_true] at hp
    simp only [scale_loop, hp.1, hp.2]
    refine ⟨Nat.zero_lt_one, rfl, ?_, ?_⟩
    · intro i hi
      have : i = 0 := by omega
      subst this
      exact le_refl _
    · intro i hi
      omega
  | succ k ih =>
    obtain ⟨hlt, hvar, hmin, hfirst⟩ := ih
    have hp := pixel_loop_apply (blur w h (p (k + 1)).act_r (p (k + 1)).wt im)
      (blur w h (p (k + 1)).inh_r (p (k + 1)).wt im) (k + 1)
      (scale_loop blur p w h im var0 bs0 (k + 1)).1
      (scale_loop blur p w h im var0 bs0 (k + 1)).2 (npix w h) j
    simp only [hj, true_and, Nat.succ_ne_zero, or_false] at hp
    have hs : scale_loop blur p w h im var0 bs0 (k + 1 + 1)
        = pixel_loop (blur w h (p (k + 1)).act_r (p (k + 1)).wt im)
            (blur w h (p (k + 1)).inh_r (p (k + 1)).wt im) (k + 1)
            (scale_loop blur p w h im var0 bs0 (k + 1)).1
            (scale_loop blur p w h im var0 bs0 (k + 1)).2 (npix w h) := rfl
    rw [hs, hp.1, hp.2]
    have hd : blur w h (p (k + 1)).act_r (p (k + 1)).wt im j
        - blur w h (p (k + 1)).inh_r (p (k + 1)).wt im j
        = variation blur p w h im (k + 1) j := rfl
    rw [hd]
    by_cases hc : |variation blur p w h im (k + 1) j|
        < |(scale_loop blur p w h im var0 bs0 (k + 1)).1 j|
    · rw [if_pos hc, if_pos hc]
      refine ⟨Nat.lt_succ_self _, rfl, ?_, ?_⟩
      · intro i hi
        rcases Nat.lt_succ_iff_lt_or_eq.mp hi with hlt2 | heq
        · exact le_of_lt (lt_of_lt_of_le hc (hmin i hlt2))
        · subst heq; exact le_refl _
      · intro i hi
        exact lt_of_lt_of_le hc (hmin i hi)
    · rw [if_neg hc, if_neg hc]
      refine ⟨Nat.lt_succ_of_lt hlt, hvar, ?_, hfirst⟩
      intro i hi
      rcases Nat.lt_succ_iff_lt_or_eq.mp hi with hlt2 | heq
      · exact hmin i hlt2
      · subst heq; exact not_lt.mp hc

/-- Closed form of the adjustment loop. -/
theorem adjust_loop_apply (p : ℕ → pattern) (var : ℕ → ℚ) (bs : ℕ → ℕ) (im : ℕ → ℚ)
    (k j : ℕ) :
    adjust_loop p var bs im k j
      = if j < k then (if var j > 0 then im j + (p (bs j)).sa else im j - (p (bs j)).sa)
        else im j := by
  induction k generalizing j with
  | zero => simp [adjust_loop]
  | succ k ih =>
    have hk := ih k
    simp only [lt_irrefl, if_false] at hk
    simp only [adjust_loop, hk]
    by_cases hjk : j = k
    · subst hjk
      by_cases hv : var j > 0
      · simp [hv]
      · simp [hv]
    · have hiff : j < k + 1 ↔ j < k := by omega
      by_cases hv : var k > 0
      · simp only [if_pos hv, Function.update_noteq hjk, ih j, hiff]
      · simp only [if_neg hv, Function.update_noteq hjk, ih j, hiff]

/-! ## Properties of the scale loop and of the update -/

/-- C2. For a non-empty pattern set and a pixel `j` of the image, after the scale loop
`best_scale[j]` is below `n`, `var[j]` is the variation of scale `best_scale[j]`, its
magnitude is at most the magnitude of the variation of every scale, and with two scales
of which scale 0 has the strictly larger magnitude at `j`, `best_scale[j]` is 1. -/
theorem scale_loop_minimal_variation (blur : ℕ → ℕ → ℕ → ℕ → (ℕ → ℚ) → (ℕ → ℚ))
    (p : ℕ → pattern) (n w h : ℕ) (im : ℕ → ℚ) (var0 : ℕ → ℚ) (bs0 : ℕ → ℕ) (j : ℕ)
    (hn : 0 < n) (hj : j < npix w h) :
    (scale_loop blur p w h im var0 bs0 n).2 j < n
      ∧ (scale_loop blur p w h im var0 bs0 n).1 j
          = variation blur p w h im ((scale_loop blur p w h im var0 bs0 n).2 j) j
      ∧ (∀ i, i < n →
          |(scale_loop blur p w h im var0 bs0 n).1 j| ≤ |variation blur p w h im i j|)
      ∧ (n = 2 → |variation blur p w h im 1 j| < |variation blur p w h im 0 j| →
          (scale_loop blur p w h im var0 bs0 n).2 j = 1) := by
  obtain ⟨k, rfl⟩ : ∃ k, n = k + 1 := ⟨n - 1, by omega⟩
  obtain ⟨hlt, hvar, hmin, -⟩ := scale_loop_invariant blur p w h im var0 bs0 j hj k
  refine ⟨hlt, hvar, hmin, ?_⟩
  intro h2 hgt
  have hk : k = 1 := by omega
  subst hk
  have h1 := hmin 1 (by omega)
  rcases Nat.lt_succ_iff_lt_or_eq.mp hlt with hb | hb
  · have hb0 : (scale_loop blur p w h im var0 bs0 (1 + 1)).2 j = 0 := by omega
    rw [hvar, hb0] at h1
    exact absurd hgt (not_lt.mpr h1)
  · exact hb

/-- C2, instance: one pixel of value 1, two scales with variations 2 and 1. -/
theorem scale_loop_minimal_variation_witness :
    0 < 2 ∧ 0 < npix 1 1
      ∧ (scale_loop demo_blur demo_scales 1 1 (fun _ => 1) (fun _ => 0) (fun _ => 0) 2).2 0
          = 1 :=
  ⟨by decide, by norm_num [npix],
    (scale_loop_minimal_variation demo_blur demo_scales 2 1 1 (fun _ => 1) (fun _ => 0)
      (fun _ => 0) 0 (by decide) (by norm_num [npix])).2.2.2 rfl
      (by norm_num [variation, demo_blur, demo_scales, Pattern])⟩

/-- C3. For a non-empty pattern set and a pixel `j` of the image, no scale of lower index
than `best_scale[j]` has a magnitude at most that of scale `best_scale[j]`; with two scales
of equal magnitude at `j`, `best_scale[j]` is 0. -/
theorem scale_loop_lowest_index (blur : ℕ → ℕ → ℕ → ℕ → (ℕ → ℚ) → (ℕ → ℚ))
    (p : ℕ → pattern) (n w h : ℕ) (im : ℕ → ℚ) (var0 : ℕ → ℚ) (bs0 : ℕ → ℕ) (j : ℕ)
    (hn : 0 < n) (hj : j < npix w h) :
    (¬ ∃ i, i < (scale_loop blur p w h im var0 bs0 n).2 j
        ∧ |variation blur p w h im i j|
            ≤ |variation blur p w h im ((scale_loop blur p w h im var0 bs0 n).2 j) j|)
      ∧ (n = 2 → |variation blur p w h im 0 j| = |variation blur p w h im 1 j| →
          (scale_loop blur p w h im var0 bs0 n).2 j = 0) := by
  obtain ⟨k, rfl⟩ : ∃ k, n = k + 1 := ⟨n - 1, by omega⟩
  obtain ⟨hlt, hvar, -, hfirst⟩ := scale_loop_invariant blur p w h im var0 bs0 j hj k
  constructor
  · rintro ⟨i, hi, hle⟩
    have h1 := hfirst i hi
    rw [hvar] at h1
    exact absurd h1 (not_lt.mpr hle)
  · intro h2 heq
    have hk : k = 1 := by omega
    subst hk
    rcases Nat.lt_succ_iff_lt_or_eq.mp hlt with hb | hb
    · omega
    · have h1 := hfirst 0 (by omega)
      rw [hvar, hb, heq] at h1
      exact absurd h1 (lt_irrefl _)

/-- C3, instance: one pixel of value 1, two scales that both have variation 1. -/
theorem scale_loop_lowest_index_witness :
    0 < 2 ∧ 0 < npix 1 1
      ∧ (scale_loop demo_blur tied_scales 1 1 (fun _ => 1) (fun _ => 0) (fun _ => 7) 2).2 0
          = 0 :=
  ⟨by decide, by norm_num [npix],
    (scale_loop_lowest_index demo_blur tied_scales 2 1 1 (fun _ => 1) (fun _ => 0)
      (fun _ => 7) 0 (by decide) (by norm_num [npix])).2 rfl
      (by norm_num [variation, demo_blur, tied_scales, Pattern])⟩

/-- C6. At every pixel `j` of the image, the value right before `normalize` is the entry
value plus the step amount of scale `best_scale[j]` when `var[j] > 0`, and the entry value
minus that step amount otherwise (`var[j] = 0` included). -/
theorem blind_quarter_update_pixel (blur : ℕ → ℕ → ℕ → ℕ → (ℕ → ℚ) → (ℕ → ℚ))
    (p : ℕ → pattern) (n w h : ℕ) (im : ℕ → ℚ) (var0 : ℕ → ℚ) (bs0 : ℕ → ℕ) (j : ℕ)
    (hj : j < npix w h) :
    (0 < (scale_loop blur p w h im var0 bs0 n).1 j →
        blind_quarter_update blur p n w h im var0 bs0 j
          = im j + (p ((scale_loop blur p w h im var0 bs0 n).2 j)).sa)
      ∧ (¬ 0 < (scale_loop blur p w h im var0 bs0 n).1 j →
        blind_quarter_update blur p n w h im var0 bs0 j
          = im j - (p ((scale_loop blur p w h im var0 bs0 n).2 j)).sa)
      ∧ ((scale_loop blur p w h im var0 bs0 n).1 j = 0 →
        blind_quarter_update blur p n w h im var0 bs0 j
          = im j - (p ((scale_loop blur p w h im var0 bs0 n).2 j)).sa) := by
  have hu := adjust_loop_apply p (scale_loop blur p w h im var0 bs0 n).1
    (scale_loop blur p w h im var0 bs0 n).2 im (npix w h) j
  rw [if_pos hj] at hu
  unfold blind_quarter_update
  refine ⟨?_, ?_, ?_⟩
  · intro hpos
    rw [hu, if_pos hpos]
  · intro hneg
    rw [hu, if_neg hneg]
  · intro hzero
    rw [hu, if_neg (by rw [hzero]; exact lt_irrefl 0)]

/-- C6, instance: one pixel of value 1/2 and one scale of equal radii, so that the
variation is exactly 0: the pixel is lowered by the step amount 1/20. -/
theorem blind_quarter_update_pixel_witness :
    0 < npix 1 1
      ∧ blind_quarter_update demo_blur equal_radius_scale 1 1 1 (fun _ => 1 / 2) (fun _ => 0)
          (fun _ => 0) 0 = 1 / 2 - 1 / 20 :=
  ⟨by norm_num [npix],
    (blind_quarter_update_pixel demo_blur equal_radius_scale 1 1 1 (fun _ => 1 / 2)
      (fun _ => 0) (fun _ => 0) 0 (by norm_num [npix])).2.2
      (by norm_num [scale_loop, pixel_loop, npix, demo_blur, equal_radius_scale, Pattern])⟩

/-- The variation of a scale whose two radii are equal is zero, whatever the blur. -/
theorem variation_equal_radius (blur : ℕ → ℕ → ℕ → ℕ → (ℕ → ℚ) → (ℕ → ℚ)) (p : ℕ → pattern)
    (w h : ℕ) (im : ℕ → ℚ) (i j : ℕ) (hr : (p i).act_r = (p i).inh_r) :
    variation blur p w h im i j = 0 := by
  unfold variation
  rw [hr, sub_self]

/-- With one scale of equal radii, every pixel of the image is lowered by that scale's step
amount before `normalize`. -/
theorem blind_quarter_update_equal_radius (blur : ℕ → ℕ → ℕ → ℕ → (ℕ → ℚ) → (ℕ → ℚ))
    (p : ℕ → pattern) (w h : ℕ) (im : ℕ → ℚ) (var0 : ℕ → ℚ) (bs0 : ℕ → ℕ) (j : ℕ)
    (hr : (p 0).act_r = (p 0).inh_r) (hj : j < npix w h) :
    blind_quarter_update blur p 1 w h im var0 bs0 j = im j - (p 0).sa := by
  obtain ⟨hlt, hvar, -, -⟩ := scale_loop_invariant blur p w h im var0 bs0 j hj 0
  have hb : (scale_loop blur p w h im var0 bs0 (0 + 1)).2 j = 0 := by omega
  rw [hb, variation_equal_radius blur p w h im 0 j hr] at hvar
  have hu := adjust_loop_apply p (scale_loop blur p w h im var0 bs0 1).1
    (scale_loop blur p w h im var0 bs0 1).2 im (npix w h) j
  rw [if_pos hj] at hu
  unfold blind_quarter_update
  rw [hu, if_neg (by rw [hvar]; exact lt_irrefl 0), hb]

/-- C7. For one scale of equal radii and step amount 0.05 on the 2 x 2 image that is
uniformly 0.5, with any blur: right before `normalize` every pixel is 0.45, and
`normalize` then divides `0.45 - 0.45` by the range `0`, so the step returns no image. -/
theorem blind_quarter_step_equal_radius_uniform :
    ∀ (blur : ℕ → ℕ → ℕ → ℕ → (ℕ → ℚ) → (ℕ → ℚ)) (var0 : ℕ → ℚ) (bs0 : ℕ → ℕ),
      pixels (blind_quarter_update blur equal_radius_scale 1 2 2 (fun _ => 1 / 2) var0 bs0) 4
          = [9 / 20, 9 / 20, 9 / 20, 9 / 20]
        ∧ blind_quarter_step blur equal_radius_scale 1 2 2 (fun _ => 1 / 2) var0 bs0
          = none := by
  intro blur var0 bs0
  have hN : npix 2 2 = 4 := by norm_num [npix]
  have hpix : ∀ j, j < npix 2 2 →
      blind_quarter_update blur equal_radius_scale 1 2 2 (fun _ => 1 / 2) var0 bs0 j
        = 9 / 20 := by
    intro j hj
    rw [blind_quarter_update_equal_radius blur equal_radius_scale 2 2 _ var0 bs0 j rfl hj]
    norm_num [equal_radius_scale, Pattern]
  constructor
  · simp only [pixels, List.range_succ, List.range_zero, List.nil_append, List.map_append,
      List.map_cons, List.map_nil, List.cons_append, List.singleton_append]
    rw [hpix 0 (by omega), hpix 1 (by omega), hpix 2 (by omega), hpix 3 (by omega)]
  · unfold blind_quarter_step
    apply normalize_uniform_none 2 2 _ (9 / 20) (by omega) hpix
    · norm_num [FLT_MIN]
    · norm_num [FLT_MAX]

/-- What a key-down of keypad plus does to the pattern set. -/
theorem handle_event_add (rand : ℕ → ℕ × ℕ) (RAND_MAX now : ℕ) (s : State) :
    (handle_event rand RAND_MAX now add_request s).2.patterns
      = if s.patterns.length < N_PATTERNS_MAX then
          s.patterns ++ [table_row s.patterns.length]
        else s.patterns := by
  unfold handle_event add_request
  by_cases hlt : s.patterns.length < N_PATTERNS_MAX
  · simp [hlt]
  · simp [hlt]

/-- What a key-down of keypad minus does to the pattern set. -/
theorem handle_event_remove (rand : ℕ → ℕ × ℕ) (RAND_MAX now : ℕ) (s : State) :
    (handle_event rand RAND_MAX now remove_request s).2.patterns
      = if s.patterns.length > N_PATTERNS_MIN then s.patterns.dropLast else s.patterns := by
  unfold handle_event remove_request
  by_cases hgt : s.patterns.length > N_PATTERNS_MIN
  · simp [hgt]
  · simp [hgt]

/-- C10, as amended. For a pattern set with at least `N_PATTERNS_MIN` and fewer than
`N_PATTERNS_MAX` entries, an add-scale request followed by a remove-scale request leaves
the pattern set with its prior contents in the prior order. -/
theorem add_then_remove_restores (rand : ℕ → ℕ × ℕ) (RAND_MAX now1 now2 : ℕ) (s : State)
    (hmin : N_PATTERNS_MIN ≤ s.patterns.length) (hmax : s.patterns.length < N_PATTERNS_MAX) :
    (handle_event rand RAND_MAX now2 remove_request
        (handle_event rand RAND_MAX now1 add_request s).2).2.patterns = s.patterns := by
  rw [handle_event_remove, handle_event_add, if_pos hmax]
  have hlen : (s.patterns ++ [table_row s.patterns.length]).length > N_PATTERNS_MIN := by
    rw [List.length_append, List.length_singleton]
    omega
  rw [if_pos hlen, List.dropLast_concat]

/-- C10 as amended, instance: the one-entry pattern set built at start-up. -/
theorem add_then_remove_restores_witness :
    N_PATTERNS_MIN ≤ (state_with initial_patterns).patterns.length
      ∧ (state_with initial_patterns).patterns.length < N_PATTERNS_MAX
      ∧ (handle_event demo_rand 32767 0 remove_request
          (handle_event demo_rand 32767 0 add_request (state_with initial_patterns)).2).2.patterns
        = initial_patterns :=
  ⟨by decide, by decide,
    add_then_remove_restores demo_rand 32767 0 0 (state_with initial_patterns) (by decide)
      (by decide)⟩

/-- C10, as stated, fails: on the full pattern set of five rows the add request is refused
and the remove request still drops the last row, so four rows are left and the pattern set
is not the prior one; on an empty pattern set the add request appends row 0 and the remove
request is refused, so one row is left. -/
theorem add_then_remove_not_restored :
    (handle_event demo_rand 32767 0 remove_request
        (handle_event demo_rand 32767 0 add_request
          (state_with ((List.range 5).map table_row))).2).2.patterns
        = (List.range 4).map table_row
      ∧ (handle_event demo_rand 32767 0 remove_request
        (handle_event demo_rand 32767 0 add_request
          (state_with ((List.range 5).map table_row))).2).2.patterns
        ≠ (state_with ((List.range 5).map table_row)).patterns
      ∧ (handle_event demo_rand 32767 0 remove_request
        (handle_event demo_rand 32767 0 add_request (state_with [])).2).2.patterns
        ≠ (state_with []).patterns := by
  have h4 : (handle_event demo_rand 32767 0 remove_request
        (handle_event demo_rand 32767 0 add_request
          (state_with ((List.range 5).map table_row))).2).2.patterns
        = (List.range 4).map table_row := by
    rw [handle_event_remove, handle_event_add]
    simp [state_with, N_PATTERNS_MAX, N_PATTERNS_MIN, List.range_succ]
  refine ⟨h4, ?_, ?_⟩
  · rw [h4]
    intro heq
    have hlen := congrArg List.length heq
    simp [state_with] at hlen
  · rw [handle_event_remove, handle_event_add]
    simp [state_with, N_PATTERNS_MAX, N_PATTERNS_MIN]

/-! ## The pattern set along event sequences -/

/-- An event leaves the pattern set alone, appends the table row of index `length` under the
guard `length < N_PATTERNS_MAX`, or drops the last entry under the guard
`length > N_PATTERNS_MIN`. -/
theorem handle_event_patterns (rand : ℕ → ℕ × ℕ) (RAND_MAX now : ℕ) (e : SDL_Event)
    (s : State) :
    (handle_event rand RAND_MAX now e s).2.patterns = s.patterns
      ∨ (s.patterns.length < N_PATTERNS_MAX
          ∧ (handle_event rand RAND_MAX now e s).2.patterns
              = s.patterns ++ [table_row s.patterns.length])
      ∨ (s.patterns.length > N_PATTERNS_MIN
          ∧ (handle_event rand RAND_MAX now e s).2.patterns = s.patterns.dropLast) := by
  unfold handle_event
  cases e.type with
  | SDL_QUIT => exact Or.inl rfl
  | SDL_MOUSEBUTTONDOWN => exact Or.inl rfl
  | other => exact Or.inl rfl
  | SDL_KEYDOWN =>
    by_cases hadd : e.key = SDL_Keycode.SDLK_KP_PLUS ∧ s.patterns.length < N_PATTERNS_MAX
    · exact Or.inr (Or.inl ⟨hadd.2, by simp only [if_pos hadd]⟩)
    · by_cases hrem : e.key = SDL_Keycode.SDLK_KP_MINUS ∧ s.patterns.length > N_PATTERNS_MIN
      · exact Or.inr (Or.inr ⟨hrem.2, by simp only [if_neg hadd, if_pos hrem]⟩)
      · exact Or.inl (by simp only [if_neg hadd, if_neg hrem])

/-- One event keeps the length of the pattern set within its bounds and the pattern set equal
to the leading rows of the parameter tables. -/
theorem handle_event_keeps_rows (rand : ℕ → ℕ × ℕ) (RAND_MAX now : ℕ) (e : SDL_Event)
    (s : State) (hmin : N_PATTERNS_MIN ≤ s.patterns.length)
    (hmax : s.patterns.length ≤ N_PATTERNS_MAX)
    (hrows : s.patterns = (List.range s.patterns.length).map table_row) :
    N_PATTERNS_MIN ≤ (handle_event rand RAND_MAX now e s).2.patterns.length
      ∧ (handle_event rand RAND_MAX now e s).2.patterns.length ≤ N_PATTERNS_MAX
      ∧ (handle_event rand RAND_MAX now e s).2.patterns
          = (List.range (handle_event rand RAND_MAX now e s).2.patterns.length).map
              table_row := by
  rcases handle_event_patterns rand RAND_MAX now e s with h | ⟨hlt, h⟩ | ⟨hgt, h⟩
  · rw [h]
    exact ⟨hmin, hmax, hrows⟩
  · rw [h, List.length_append, List.length_singleton]
    refine ⟨Nat.le_succ_of_le hmin, hlt, ?_⟩
    rw [List.range_succ, List.map_append, ← hrows]
    rfl
  · rw [h, List.length_dropLast]
    unfold N_PATTERNS_MIN at hgt hmin ⊢
    refine ⟨by omega, by omega, ?_⟩
    obtain ⟨m, hm⟩ : ∃ m, s.patterns.length = m + 1 := ⟨s.patterns.length - 1, by omega⟩
    have hdrop : s.patterns.dropLast = (List.range m).map table_row := by
      rw [hrows, hm, List.range_succ, List.map_append]
      exact List.dropLast_concat
    rw [hdrop, hm]
    rfl

/-- Along any sequence of events, the bounds and the table rows are kept. -/
theorem run_events_keeps_rows (rand : ℕ → ℕ × ℕ) (RAND_MAX : ℕ) (evs : List (ℕ × SDL_Event))
    (s : State) (hmin : N_PATTERNS_MIN ≤ s.patterns.length)
    (hmax : s.patterns.length ≤ N_PATTERNS_MAX)
    (hrows : s.patterns = (List.range s.patterns.length).map table_row) :
    N_PATTERNS_MIN ≤ (run_events rand RAND_MAX evs s).patterns.length
      ∧ (run_events rand RAND_MAX evs s).patterns.length ≤ N_PATTERNS_MAX
      ∧ (run_events rand RAND_MAX evs s).patterns
          = (List.range (run_events rand RAND_MAX evs s).patterns.length).map table_row := by
  induction evs generalizing s with
  | nil => exact ⟨hmin, hmax, hrows⟩
  | cons e es ih =>
    obtain ⟨h1, h2, h3⟩ := handle_event_keeps_rows rand RAND_MAX e.1 e.2 s hmin hmax hrows
    exact ih _ h1 h2 h3

/-- The state at the start of the event loop meets the bounds and holds row 0. -/
theorem initial_state_rows (w h : ℕ) (im : ℕ → ℚ) (g : ℕ) :
    N_PATTERNS_MIN ≤ (initial_state w h im g).patterns.length
      ∧ (initial_state w h im g).patterns.length ≤ N_PATTERNS_MAX
      ∧ (initial_state w h im g).patterns
          = (List.range (initial_state w h im g).patterns.length).map table_row := by
  have hlen : (initial_state w h im g).patterns.length = 1 := rfl
  rw [hlen]
  exact ⟨by decide, by decide, rfl⟩

/-- Every one of the five table rows has positive radii and a step amount in (0, 1). -/
theorem table_row_positive (i : ℕ) (hi : i < N_PATTERNS_MAX) :
    0 < (table_row i).act_r ∧ 0 < (table_row i).inh_r
      ∧ 0 < (table_row i).sa ∧ (table_row i).sa < 1 := by
  unfold N_PATTERNS_MAX at hi
  interval_cases i <;>
    norm_num [table_row, Pattern, act_r_all, inh_r_all, wt_all, sym_all, sa_all]

/-- C11. After any finite sequence of handled events, started from the pattern set built
in `main`, the pattern set has at least `N_PATTERNS_MIN = 1` and at most
`N_PATTERNS_MAX = 5` entries. -/
theorem run_events_length_bounds (rand : ℕ → ℕ × ℕ) (RAND_MAX : ℕ)
    (evs : List (ℕ × SDL_Event)) (w h : ℕ) (im : ℕ → ℚ) (g : ℕ) :
    N_PATTERNS_MIN ≤ (run_events rand RAND_MAX evs (initial_state w h im g)).patterns.length
      ∧ (run_events rand RAND_MAX evs (initial_state w h im g)).patterns.length
          ≤ N_PATTERNS_MAX
      ∧ N_PATTERNS_MIN = 1 ∧ N_PATTERNS_MAX = 5
      ∧ (initial_state w h im g).patterns.length = N_PATTERNS_START := by
  obtain ⟨h0, h1, h2⟩ := initial_state_rows w h im g
  obtain ⟨hmin, hmax, -⟩ := run_events_keeps_rows rand RAND_MAX evs _ h0 h1 h2
  exact ⟨hmin, hmax, rfl, rfl, rfl⟩

/-- C12. An add-scale request on a pattern set of `N_PATTERNS_MAX` entries, and a
remove-scale request on a pattern set of `N_PATTERNS_MIN` entries, each leave the globals,
the pattern set included, as they were. -/
theorem capacity_requests_rejected (rand : ℕ → ℕ × ℕ) (RAND_MAX now : ℕ) (s : State) :
    (s.patterns.length = N_PATTERNS_MAX →
        (handle_event rand RAND_MAX now add_request s).2 = s
          ∧ (handle_event rand RAND_MAX now add_request s).2.patterns = s.patterns)
      ∧ (s.patterns.length = N_PATTERNS_MIN →
        (handle_event rand RAND_MAX now remove_request s).2 = s
          ∧ (handle_event rand RAND_MAX now remove_request s).2.patterns = s.patterns) := by
  constructor
  · intro hlen
    have hs : (handle_event rand RAND_MAX now add_request s).2 = s := by
      simp [handle_event, add_request, hlen]
    exact ⟨hs, by rw [hs]⟩
  · intro hlen
    have hs : (handle_event rand RAND_MAX now remove_request s).2 = s := by
      simp [handle_event, remove_request, hlen, N_PATTERNS_MIN, N_PATTERNS_MAX]
    exact ⟨hs, by rw [hs]⟩

/-- C12, instance: a full pattern set of five rows refuses the add, the start-up pattern set
of one row refuses the remove. -/
theorem capacity_requests_rejected_witness :
    (handle_event demo_rand 32767 0 add_request
        (state_with ((List.range 5).map table_row))).2.patterns
        = (state_with ((List.range 5).map table_row)).patterns
      ∧ (handle_event demo_rand 32767 0 remove_request (state_with initial_patterns)).2.patterns
        = (state_with initial_patterns).patterns :=
  ⟨((capacity_requests_rejected demo_rand 32767 0
      (state_with ((List.range 5).map table_row))).1 (by simp [state_with, N_PATTERNS_MAX])).2,
    ((capacity_requests_rejected demo_rand 32767 0 (state_with initial_patterns)).2
      (by decide)).2⟩

/-! ## Range of the normalized pixels -/

/-- Whenever the range is not zero, `normalize` returns an image whose pixels all lie in the
closed interval [0, 1]. -/
theorem normalize_pixels_in_unit (w h : ℕ) (im : ℕ → ℚ)
    (hr : (normalize_scan im (npix w h)).1 - (normalize_scan im (npix w h)).2 ≠ 0) :
    ∃ out, normalize w h im = some out
      ∧ ∀ j, j < npix w h → 0 ≤ out j ∧ out j ≤ 1 := by
  refine ⟨_, normalize_of_range_ne_zero w h im hr, ?_⟩
  intro j hj
  have hk : 0 < npix w h := Nat.lt_of_le_of_lt (Nat.zero_le j) hj
  have hpos : 0 < (normalize_scan im (npix w h)).1 - (normalize_scan im (npix w h)).2 :=
    lt_of_le_of_ne (normalize_range_nonneg im (npix w h) hk) (Ne.symm hr)
  have h1 := normalize_scan_max_ge im (npix w h) j hj
  have h2 := normalize_scan_min_le im (npix w h) j hj
  simp only [hj, if_true]
  constructor
  · exact div_nonneg (by linarith) (le_of_lt hpos)
  · rw [div_le_one hpos]
    linarith

/-- C13. On the 3 x 1 image `[1, 1, 1]` the range is zero: `normalize` returns no image, so
no pixel of a result lies in [0, 1]. -/
theorem normalize_uniform_not_in_unit :
    normalize 3 1 (ofList [1, 1, 1]) = none
      ∧ ¬ ∃ out, normalize 3 1 (ofList [1, 1, 1]) = some out
          ∧ ∀ j, j < npix 3 1 → 0 ≤ out j ∧ out j ≤ 1 := by
  have hn : normalize 3 1 (ofList [1, 1, 1]) = none := by
    apply normalize_of_range_zero
    · norm_num [npix]
    · have hN : npix 3 1 = 3 := by norm_num [npix]
      norm_num [hN, normalize_scan, ofList, FLT_MIN, FLT_MAX]
  refine ⟨hn, ?_⟩
  rintro ⟨out, hout, -⟩
  rw [hn] at hout
  exact Option.noConfusion hout

/-! ## `blind_quarter_init_image` -/

/-- The generator state after `k` pixels does not depend on the image buffer. -/
theorem init_loop_state (rand : ℕ → ℕ × ℕ) (RAND_MAX : ℕ) (im1 im2 : ℕ → ℚ) (g k : ℕ) :
    (init_loop rand RAND_MAX im1 g k).2 = (init_loop rand RAND_MAX im2 g k).2 := by
  induction k with
  | zero => rfl
  | succ k ih => simp only [init_loop, ih]

/-- Pixel `j`, once filled, holds the `j`-th draw divided by `RAND_MAX`. -/
theorem init_loop_pixel (rand : ℕ → ℕ × ℕ) (RAND_MAX : ℕ) (im : ℕ → ℚ) (g k j : ℕ)
    (hj : j < k) :
    (init_loop rand RAND_MAX im g k).1 j
      = ((rand (init_loop rand RAND_MAX im g j).2).1 : ℚ) / (RAND_MAX : ℚ) := by
  induction k with
  | zero => omega
  | succ k ih =>
    simp only [init_loop]
    by_cases hjk : j = k
    · subst hjk
      simp
    · rw [Function.update_noteq hjk]
      exact ih (by omega)

/-- C14, as stated, fails: `rand()` may return `RAND_MAX` itself, here 32767, and the pixel
stored is then `32767 / 32767 = 1`, which is not below 1. -/
theorem init_image_pixel_can_be_one :
    (max_rand 0).1 ≤ 32767
      ∧ (blind_quarter_init_image max_rand 32767 0 1 1 (fun _ => 0) 0).1 0 = 1
      ∧ ¬ (blind_quarter_init_image max_rand 32767 0 1 1 (fun _ => 0) 0).1 0 < 1 := by
  have hpix : (blind_quarter_init_image max_rand 32767 0 1 1 (fun _ => 0) 0).1 0 = 1 := by
    unfold blind_quarter_init_image
    rw [init_loop_pixel max_rand 32767 _ 0 (npix 1 1) 0 (by norm_num [npix])]
    norm_num [max_rand]
  refine ⟨le_refl _, hpix, ?_⟩
  rw [hpix]
  exact lt_irrefl 1

/-- C16, as amended. `blind_quarter_init_image` seeds the generator on every call, a reset
by mouse click included: the generator state it leaves and every pixel of the image it
fills depend on the clock value of the call, not on the generator state or the image left
by earlier calls. -/
theorem init_image_reseeds_every_call (rand : ℕ → ℕ × ℕ) (RAND_MAX now w h : ℕ)
    (im1 im2 : ℕ → ℚ) (g1 g2 : ℕ) (s : State) :
    (blind_quarter_init_image rand RAND_MAX now w h im1 g1).2
        = (blind_quarter_init_image rand RAND_MAX now w h im2 g2).2
      ∧ (∀ j, j < npix w h →
          (blind_quarter_init_image rand RAND_MAX now w h im1 g1).1 j
            = (blind_quarter_init_image rand RAND_MAX now w h im2 g2).1 j)
      ∧ (handle_event rand RAND_MAX now reset_request { s with rng := g1 }).2.image
          = (handle_event rand RAND_MAX now reset_request { s with rng := g2 }).2.image
      ∧ (handle_event rand RAND_MAX now reset_request { s with rng := g1 }).2.rng
          = (handle_event rand RAND_MAX now reset_request { s with rng := g2 }).2.rng := by
  refine ⟨?_, ?_, rfl, rfl⟩
  · unfold blind_quarter_init_image
    exact init_loop_state rand RAND_MAX im1 im2 now (npix w h)
  · intro j hj
    unfold blind_quarter_init_image
    rw [init_loop_pixel rand RAND_MAX im1 now (npix w h) j hj,
      init_loop_pixel rand RAND_MAX im2 now (npix w h) j hj,
      init_loop_state rand RAND_MAX im1 im2 now j]

/-- C16, as stated, fails: with the counter generator, a first call at clock value 7 leaves
the generator in state 9; a later call at clock value 20 fills the 2 x 1 image with the
draws of seed 20, not with the draws 9 and 10 that continue the state left by the first
call. -/
theorem init_image_later_call_reseeds :
    (blind_quarter_init_image counter_rand 32767 7 2 1 (fun _ => 0) 0).2 = 9
      ∧ pixels (blind_quarter_init_image counter_rand 32767 20 2 1
          (blind_quarter_init_image counter_rand 32767 7 2 1 (fun _ => 0) 0).1
          (blind_quarter_init_image counter_rand 32767 7 2 1 (fun _ => 0) 0).2).1 2
          = [20 / 32767, 21 / 32767]
      ∧ pixels (init_loop counter_rand 32767
          (blind_quarter_init_image counter_rand 32767 7 2 1 (fun _ => 0) 0).1
          (blind_quarter_init_image counter_rand 32767 7 2 1 (fun _ => 0) 0).2 2).1 2
          = [9 / 32767, 10 / 32767] := by
  have hstate : (blind_quarter_init_image counter_rand 32767 7 2 1 (fun _ => 0) 0).2 = 9 := by
    norm_num [blind_quarter_init_image, npix, init_loop, counter_rand]
  refine ⟨hstate, ?_, ?_⟩
  · simp only [pixels, List.range_succ, List.range_zero, List.nil_append, List.map_append,
      List.map_cons, List.map_nil, List.singleton_append]
    unfold blind_quarter_init_image
    rw [npix_2_1, init_loop_pixel counter_rand 32767 _ 20 2 0 (by omega),
      init_loop_pixel counter_rand 32767 _ 20 2 1 (by omega)]
    norm_num [init_loop, counter_rand]
  · simp only [pixels, List.range_succ, List.range_zero, List.nil_append, List.map_append,
      List.map_cons, List.map_nil, List.singleton_append]
    rw [hstate, init_loop_pixel counter_rand 32767 _ 9 2 0 (by omega),
      init_loop_pixel counter_rand 32767 _ 9 2 1 (by omega)]
    norm_num [init_loop, counter_rand]

/-! ## The image during the scale loop -/

/-- The pixel loop writes `var` and `best_scale` only, and writes them as `pixel_loop`
does. -/
theorem pixel_loop_mem_frame (i : ℕ) (m : StepMem) (k : ℕ) :
    (pixel_loop_mem i m k).im = m.im
      ∧ (pixel_loop_mem i m k).act = m.act
      ∧ (pixel_loop_mem i m k).inh = m.inh
      ∧ (pixel_loop_mem i m k).var = (pixel_loop m.act m.inh i m.var m.best_scale k).1
      ∧ (pixel_loop_mem i m k).best_scale
          = (pixel_loop m.act m.inh i m.var m.best_scale k).2 := by
  induction k with
  | zero => exact ⟨rfl, rfl, rfl, rfl, rfl⟩
  | succ k ih =>
    obtain ⟨him, hact, hinh, hvar, hbs⟩ := ih
    simp only [pixel_loop_mem, pixel_loop, hact, hinh, hvar]
    split_ifs with hc
    · exact ⟨him, rfl, rfl, rfl, by rw [hbs]⟩
    · refine ⟨him, ?_, ?_, ?_, hbs⟩
      · rw [hact]
      · rw [hinh]
      · rw [hvar]

/-- C15. After any number `n` of scales, the image buffer is the one of step entry, each of
the `2 * n` calls of `blur` (activator and inhibitor of every scale) received the image of
step entry as its input, and `var` and `best_scale` are those computed from the image of
step entry. -/
theorem scale_loop_reads_entry_image (blur : ℕ → ℕ → ℕ → ℕ → (ℕ → ℚ) → (ℕ → ℚ))
    (p : ℕ → pattern) (w h : ℕ) (m : StepMem) (n : ℕ) :
    (scale_loop_mem blur p w h m n).1.im = m.im
      ∧ (scale_loop_mem blur p w h m n).2 = List.replicate (2 * n) m.im
      ∧ (scale_loop_mem blur p w h m n).1.var
          = (scale_loop blur p w h m.im m.var m.best_scale n).1
      ∧ (scale_loop_mem blur p w h m n).1.best_scale
          = (scale_loop blur p w h m.im m.var m.best_scale n).2 := by
  induction n with
  | zero => exact ⟨rfl, rfl, rfl, rfl⟩
  | succ k ih =>
    obtain ⟨him, hlog, hvar, hbs⟩ := ih
    obtain ⟨f1, -, -, f4, f5⟩ := pixel_loop_mem_frame k
      { im := (scale_loop_mem blur p w h m k).1.im,
        act := blur w h (p k).act_r (p k).wt (scale_loop_mem blur p w h m k).1.im,
        inh := blur w h (p k).inh_r (p k).wt (scale_loop_mem blur p w h m k).1.im,
        var := (scale_loop_mem blur p w h m k).1.var,
        best_scale := (scale_loop_mem blur p w h m k).1.best_scale } (npix w h)
    simp only [scale_loop_mem, scale_loop]
    refine ⟨?_, ?_, ?_, ?_⟩
    · rw [f1]
      exact him
    · rw [hlog, him, show 2 * (k + 1) = 2 * k + 2 by ring, List.replicate_add]
      rfl
    · rw [f4]
      simp only [him, hvar, hbs]
    · rw [f5]
      simp only [him, hvar, hbs]

/-! ## When `normalize` reaches 0 and 1 -/

/-- When some pixel `b` of the image is at least `FLT_MIN`, some pixel `a` is at most `FLT_MAX`
and `im[a] < im[b]`, the range is positive and `normalize` returns an image that has a pixel
0, a pixel 1 and all its pixels in [0, 1]. -/
theorem normalize_spans_unit (w h : ℕ) (im : ℕ → ℚ) (a b : ℕ) (ha : a < npix w h)
    (hb : b < npix w h) (hab : im a < im b) (hlo : im a ≤ FLT_MAX) (hhi : FLT_MIN ≤ im b) :
    0 < (normalize_scan im (npix w h)).1 - (normalize_scan im (npix w h)).2
      ∧ ∃ out, normalize w h im = some out
          ∧ (∃ j, j < npix w h ∧ out j = 0)
          ∧ (∃ j, j < npix w h ∧ out j = 1)
          ∧ ∀ j, j < npix w h → 0 ≤ out j ∧ out j ≤ 1 := by
  have hMb := normalize_scan_max_ge im (npix w h) b hb
  have hma := normalize_scan_min_le im (npix w h) a ha
  have hpos : 0 < (normalize_scan im (npix w h)).1 - (normalize_scan im (npix w h)).2 := by
    linarith
  have hmax : ∃ j, j < npix w h ∧ (normalize_scan im (npix w h)).1 = im j := by
    rcases normalize_scan_max_attained im (npix w h) with h0 | hj
    · exact ⟨b, hb, le_antisymm (by rw [h0]; exact hhi) hMb⟩
    · exact hj
  have hmin : ∃ j, j < npix w h ∧ (normalize_scan im (npix w h)).2 = im j := by
    rcases normalize_scan_min_attained im (npix w h) with h0 | hj
    · exact ⟨a, ha, le_antisymm hma (by rw [h0]; exact hlo)⟩
    · exact hj
  refine ⟨hpos, _, normalize_of_range_ne_zero w h im (ne_of_gt hpos), ?_, ?_, ?_⟩
  · obtain ⟨j, hj, hval⟩ := hmin
    refine ⟨j, hj, ?_⟩
    simp only [hj, if_true]
    rw [← hval, sub_self, zero_div]
  · obtain ⟨j, hj, hval⟩ := hmax
    refine ⟨j, hj, ?_⟩
    simp only [hj, if_true]
    rw [← hval]
    exact div_self (ne_of_gt hpos)
  · intro j hj
    have h1 := normalize_scan_max_ge im (npix w h) j hj
    have h2 := normalize_scan_min_le im (npix w h) j hj
    simp only [hj, if_true]
    constructor
    · exact div_nonneg (by linarith) (le_of_lt hpos)
    · rw [div_le_one hpos]
      linarith

/-- For a non-empty pattern set whose step amounts lie strictly between 0 and 1/2, the
update moves every pixel of the image by less than 1/2. -/
theorem blind_quarter_update_near (blur : ℕ → ℕ → ℕ → ℕ → (ℕ → ℚ) → (ℕ → ℚ))
    (p : ℕ → pattern) (n w h : ℕ) (im : ℕ → ℚ) (var0 : ℕ → ℚ) (bs0 : ℕ → ℕ) (j : ℕ)
    (hn : 0 < n) (hsa : ∀ i, i < n → 0 < (p i).sa ∧ (p i).sa < 1 / 2)
    (hj : j < npix w h) :
    im j - 1 / 2 < blind_quarter_update blur p n w h im var0 bs0 j
      ∧ blind_quarter_update blur p n w h im var0 bs0 j < im j + 1 / 2 := by
  obtain ⟨k, rfl⟩ : ∃ k, n = k + 1 := ⟨n - 1, by omega⟩
  obtain ⟨hlt, -, -, -⟩ := scale_loop_invariant blur p w h im var0 bs0 j hj k
  obtain ⟨h0, h1⟩ := hsa _ hlt
  have hu := adjust_loop_apply p (scale_loop blur p w h im var0 bs0 (k + 1)).1
    (scale_loop blur p w h im var0 bs0 (k + 1)).2 im (npix w h) j
  rw [if_pos hj] at hu
  unfold blind_quarter_update
  rw [hu]
  split_ifs with hv
  · constructor <;> linarith
  · constructor <;> linarith

/-- C17. For an image that has a pixel 0 and a pixel 1, a non-empty pattern set whose step
amounts lie strictly between 0 and 1/2, and any blur, the range that `normalize` computes
inside `blind_quarter_step` is strictly positive and the step returns an image that has a
pixel 0, a pixel 1 and all its pixels in [0, 1]. -/
theorem blind_quarter_step_keeps_unit_span (blur : ℕ → ℕ → ℕ → ℕ → (ℕ → ℚ) → (ℕ → ℚ))
    (p : ℕ → pattern) (n w h : ℕ) (im : ℕ → ℚ) (var0 : ℕ → ℚ) (bs0 : ℕ → ℕ)
    (hn : 0 < n) (hsa : ∀ i, i < n → 0 < (p i).sa ∧ (p i).sa < 1 / 2)
    (hzero : ∃ a, a < npix w h ∧ im a = 0) (hone : ∃ b, b < npix w h ∧ im b = 1) :
    0 < (normalize_scan (blind_quarter_update blur p n w h im var0 bs0) (npix w h)).1
          - (normalize_scan (blind_quarter_update blur p n w h im var0 bs0) (npix w h)).2
      ∧ ∃ out, blind_quarter_step blur p n w h im var0 bs0 = some out
          ∧ (∃ j, j < npix w h ∧ out j = 0)
          ∧ (∃ j, j < npix w h ∧ out j = 1)
          ∧ ∀ j, j < npix w h → 0 ≤ out j ∧ out j ≤ 1 := by
  obtain ⟨a, ha, ha0⟩ := hzero
  obtain ⟨b, hb, hb1⟩ := hone
  have hua := blind_quarter_update_near blur p n w h im var0 bs0 a hn hsa ha
  have hub := blind_quarter_update_near blur p n w h im var0 bs0 b hn hsa hb
  rw [ha0] at hua
  rw [hb1] at hub
  have hF1 : FLT_MIN ≤ 1 / 2 := by norm_num [FLT_MIN]
  have hF2 : (1 : ℚ) / 2 ≤ FLT_MAX := by norm_num [FLT_MAX]
  unfold blind_quarter_step
  exact normalize_spans_unit w h _ a b ha hb (by linarith) (by linarith) (by linarith)

/-- C17, instance: the 2 x 1 image `[0, 1]` with the two scales of step amounts 1/20 and
1/25. -/
theorem blind_quarter_step_keeps_unit_span_witness :
    ∃ out, blind_quarter_step demo_blur demo_scales 2 2 1 (ofList [0, 1]) (fun _ => 0)
        (fun _ => 0) = some out
      ∧ (∃ j, j < npix 2 1 ∧ out j = 0)
      ∧ (∃ j, j < npix 2 1 ∧ out j = 1)
      ∧ ∀ j, j < npix 2 1 → 0 ≤ out j ∧ out j ≤ 1 :=
  (blind_quarter_step_keeps_unit_span demo_blur demo_scales 2 2 1 (ofList [0, 1])
    (fun _ => 0) (fun _ => 0) (by decide)
    (by
      intro i hi
      interval_cases i <;> norm_num [demo_scales, Pattern])
    ⟨0, by norm_num [npix], by norm_num [ofList]⟩
    ⟨1, by norm_num [npix], by norm_num [ofList]⟩).2

/-! ## The pattern set and the parameter tables -/

/-- Below `N_PATTERNS_MAX` every one of the five tables has an entry at the index, and
`table_row` holds exactly those entries. -/
theorem table_reads_in_bounds (i : ℕ) (hi : i < N_PATTERNS_MAX) :
    act_r_all[i]? = some (table_row i).act_r
      ∧ inh_r_all[i]? = some (table_row i).inh_r
      ∧ wt_all[i]? = some (table_row i).wt
      ∧ sym_all[i]? = some (table_row i).sym
      ∧ sa_all[i]? = some (table_row i).sa := by
  unfold N_PATTERNS_MAX at hi
  interval_cases i <;>
    simp [table_row, Pattern, act_r_all, inh_r_all, wt_all, sym_all, sa_all]

/-- C19. After any finite sequence of handled events, started from the pattern set built
in `main`: the pattern set of length `k` is the first `k` rows of the parameter tables,
entry `i` being row `i`; an add request either changes nothing or appends the row of index
`k` with `k < N_PATTERNS_MAX`, an index at which all five tables have an entry; and every
scale of the set has positive radii and a step amount strictly between 0 and 1. -/
theorem run_events_table_rows (rand : ℕ → ℕ × ℕ) (RAND_MAX : ℕ)
    (evs : List (ℕ × SDL_Event)) (w h : ℕ) (im : ℕ → ℚ) (g now : ℕ) :
    (run_events rand RAND_MAX evs (initial_state w h im g)).patterns
        = (List.range (run_events rand RAND_MAX evs (initial_state w h im g)).patterns.length).map
            table_row
      ∧ (∀ i, i < (run_events rand RAND_MAX evs (initial_state w h im g)).patterns.length →
          (run_events rand RAND_MAX evs (initial_state w h im g)).patterns[i]?
            = some (table_row i))
      ∧ ((handle_event rand RAND_MAX now add_request
            (run_events rand RAND_MAX evs (initial_state w h im g))).2.patterns
          = (run_events rand RAND_MAX evs (initial_state w h im g)).patterns
        ∨ ((run_events rand RAND_MAX evs (initial_state w h im g)).patterns.length
              < N_PATTERNS_MAX
            ∧ (handle_event rand RAND_MAX now add_request
                (run_events rand RAND_MAX evs (initial_state w h im g))).2.patterns
              = (run_events rand RAND_MAX evs (initial_state w h im g)).patterns
                ++ [table_row
                  (run_events rand RAND_MAX evs (initial_state w h im g)).patterns.length]
            ∧ act_r_all[(run_events rand RAND_MAX evs
                (initial_state w h im g)).patterns.length]?.isSome = true
            ∧ inh_r_all[(run_events rand RAND_MAX evs
                (initial_state w h im g)).patterns.length]?.isSome = true
            ∧ wt_all[(run_events rand RAND_MAX evs
                (initial_state w h im g)).patterns.length]?.isSome = true
            ∧ sym_all[(run_events rand RAND_MAX evs
                (initial_state w h im g)).patterns.length]?.isSome = true
            ∧ sa_all[(run_events rand RAND_MAX evs
                (initial_state w h im g)).patterns.length]?.isSome = true))
      ∧ (∀ pt, pt ∈ (run_events rand RAND_MAX evs (initial_state w h im g)).patterns →
          0 < pt.act_r ∧ 0 < pt.inh_r ∧ 0 < pt.sa ∧ pt.sa < 1) := by
  obtain ⟨h0, h1, h2⟩ := initial_state_rows w h im g
  obtain ⟨-, hmax, hrows⟩ := run_events_keeps_rows rand RAND_MAX evs _ h0 h1 h2
  generalize run_events rand RAND_MAX evs (initial_state w h im g) = s at hmax hrows ⊢
  refine ⟨hrows, ?_, ?_, ?_⟩
  · intro i hi
    have hget := congrArg (fun l : List pattern => l[i]?) hrows
    simp only [List.getElem?_map, List.getElem?_range hi, Option.map_some'] at hget
    exact hget
  · rw [handle_event_add]
    by_cases hlt : s.patterns.length < N_PATTERNS_MAX
    · right
      obtain ⟨t1, t2, t3, t4, t5⟩ := table_reads_in_bounds s.patterns.length hlt
      rw [if_pos hlt, t1, t2, t3, t4, t5]
      exact ⟨hlt, rfl, rfl, rfl, rfl, rfl, rfl⟩
    · left
      rw [if_neg hlt]
  · intro pt hpt
    rw [hrows, List.mem_map] at hpt
    obtain ⟨i, hi, rfl⟩ := hpt
    rw [List.mem_range] at hi
    exact table_row_positive i (lt_of_lt_of_le hi hmax)

/-! ## Argument parsing -/

/-- What `parse_args` returns when it reports no error. -/
theorem parse_args_ok (strtol : String → ℤ × Bool) (argc : ℤ) (argv : List String)
    (width height : ℕ) (colors : String)
    (hok : (parse_args strtol argc argv width height colors).1 = false) :
    argc = N_ARGUMENTS
      ∧ WIDTH_MIN ≤ (parse_args strtol argc argv width height colors).2.1
      ∧ HEIGHT_MIN ≤ (parse_args strtol argc argv width height colors).2.2.1 := by
  unfold parse_args at hok ⊢
  by_cases hargc : argc ≠ N_ARGUMENTS
  · rw [if_pos hargc] at hok
    exact absurd hok (by simp)
  · rw [if_neg hargc] at hok ⊢
    by_cases hbad : (strtol (argv.getD 1 "")).2 = true ∨ (strtol (argv.getD 2 "")).2 = true
        ∨ to_size_t (strtol (argv.getD 1 "")).1 < WIDTH_MIN
        ∨ to_size_t (strtol (argv.getD 2 "")).1 < HEIGHT_MIN
        ∨ to_size_t (strtol (argv.getD 1 "")).1 = UINT32_MAX
        ∨ to_size_t (strtol (argv.getD 2 "")).1 = UINT32_MAX
    · simp only [if_pos hbad] at hok
      exact absurd hok (by simp)
    · simp only [if_neg hbad]
      simp only [not_or, not_lt] at hbad
      exact ⟨not_not.mp hargc, hbad.2.2.1, hbad.2.2.2.1⟩

/-- C20. When `parse_args` reports no error, `argc` is `N_ARGUMENTS = 4` and the parsed
width and height are at least 100; `main` then reaches `blind_quarter_init_image` with that
width and height, both non-zero. When `parse_args` reports an error, `main` returns 1 before
anything is allocated. -/
theorem parse_args_guards_dimensions (strtol : String → ℤ × Bool) (rand : ℕ → ℕ × ℕ)
    (RAND_MAX now : ℕ) (argc : ℤ) (argv : List String) (im0 : ℕ → ℚ) (g : ℕ) :
    ((parse_args strtol argc argv 0 0 "").1 = false →
        argc = 4
          ∧ 100 ≤ (parse_args strtol argc argv 0 0 "").2.1
          ∧ 100 ≤ (parse_args strtol argc argv 0 0 "").2.2.1
          ∧ ∃ s, main_init strtol rand RAND_MAX now argc argv im0 g = Except.ok s
              ∧ s.width = (parse_args strtol argc argv 0 0 "").2.1
              ∧ s.height = (parse_args strtol argc argv 0 0 "").2.2.1
              ∧ 0 < s.width ∧ 0 < s.height)
      ∧ ((parse_args strtol argc argv 0 0 "").1 = true →
        main_init strtol rand RAND_MAX now argc argv im0 g = Except.error 1) := by
  constructor
  · intro hok
    obtain ⟨h1, h2, h3⟩ := parse_args_ok strtol argc argv 0 0 "" hok
    unfold WIDTH_MIN at h2
    unfold HEIGHT_MIN at h3
    refine ⟨h1, h2, h3, ?_⟩
    unfold main_init
    simp only [hok, Bool.false_eq_true, if_false]
    exact ⟨_, rfl, rfl, rfl, lt_of_lt_of_le (by norm_num) h2, lt_of_lt_of_le (by norm_num) h3⟩
  · intro herr
    unfold main_init
    simp only [herr, if_true]

/-- C20, instance: four arguments parsed as 640 pass with a width of at least 100, three
arguments make `main` return 1. -/
theorem parse_args_guards_dimensions_witness :
    100 ≤ (parse_args demo_strtol 4 ["bq", "640", "640", "bw"] 0 0 "").2.1
      ∧ main_init demo_strtol demo_rand 32767 0 3 ["bq", "640", "640"] (fun _ => 0) 0
          = Except.error 1 :=
  ⟨((parse_args_guards_dimensions demo_strtol demo_rand 32767 0 4
        ["bq", "640", "640", "bw"] (fun _ => 0) 0).1
      (by simp [parse_args, demo_strtol, to_size_t, N_ARGUMENTS, WIDTH_MIN, HEIGHT_MIN,
        UINT32_MAX])).2.1,
    (parse_args_guards_dimensions demo_strtol demo_rand 32767 0 3
        ["bq", "640", "640"] (fun _ => 0) 0).2
      (by simp [parse_args, N_ARGUMENTS])⟩

/-! ## Rounding to binary32 -/

theorem round_half_even_near (y : ℚ) :
    (round_half_even y : ℚ) - 1 / 2 ≤ y ∧ y ≤ (round_half_even y : ℚ) + 1 / 2 := by
  have h1 := Int.floor_le y
  have h2 := Int.lt_floor_add_one y
  unfold round_half_even
  split_ifs with ha hb hc
  · constructor <;> linarith
  · push_cast; constructor <;> linarith
  · constructor <;> linarith
  · push_cast; constructor <;> linarith

theorem round_half_even_of_near (y : ℚ) (n : ℤ) (h : |y - n| < 1 / 2) :
    round_half_even y = n := by
  rw [abs_lt] at h
  obtain ⟨h1, h2⟩ := round_half_even_near y
  have a : ((round_half_even y : ℤ) : ℚ) < (n : ℚ) + 1 := by linarith
  have b : ((n : ℤ) : ℚ) < (round_half_even y : ℚ) + 1 := by linarith
  have a' : round_half_even y < n + 1 := by exact_mod_cast a
  have b' : n < round_half_even y + 1 := by exact_mod_cast b
  omega

theorem round_half_even_int (n : ℤ) : round_half_even (n : ℚ) = n :=
  round_half_even_of_near _ n (by simp)

theorem round_half_even_mono (y1 y2 : ℚ) (h : y1 ≤ y2) :
    round_half_even y1 ≤ round_half_even y2 := by
  by_contra hlt
  push_neg at hlt
  have hge : round_half_even y2 + 1 ≤ round_half_even y1 := hlt
  have hq : ((round_half_even y2 : ℤ) : ℚ) + 1 ≤ (round_half_even y1 : ℚ) := by exact_mod_cast hge
  obtain ⟨a1, -⟩ := round_half_even_near y1
  obtain ⟨-, b2⟩ := round_half_even_near y2
  have heq : y1 = y2 := by linarith
  rw [heq] at hlt
  exact lt_irrefl _ hlt


theorem f32_quantum_eq (x : ℚ) : f32_quantum x = 2 ^ (f32_exp x - 23) := rfl

theorem f32_quantum_pos (x : ℚ) : 0 < f32_quantum x := by
  unfold f32_quantum; positivity

theorem two_zpow_split (e : ℤ) :
    (2 : ℚ) ^ e = 2 ^ 23 * 2 ^ (e - 23) ∧ (2 : ℚ) ^ (e + 1) = 2 ^ 24 * 2 ^ (e - 23) := by
  constructor
  · rw [show e = 23 + (e - 23) by ring, zpow_add₀ (by norm_num : (2 : ℚ) ≠ 0)]
    norm_num
  · rw [show e + 1 = 24 + (e - 23) by ring, zpow_add₀ (by norm_num : (2 : ℚ) ≠ 0)]
    norm_num

theorem abs_lt_f32_exp (x : ℚ) : |x| < 2 ^ (f32_exp x + 1) := by
  have h1 : |x| < ((2 : ℕ) : ℚ) ^ (Int.log 2 |x| + 1) := Int.lt_zpow_succ_log_self (by norm_num) _
  have h2 : ((2 : ℕ) : ℚ) ^ (Int.log 2 |x| + 1) ≤ ((2 : ℕ) : ℚ) ^ (f32_exp x + 1) := by
    apply zpow_le_zpow_right₀ (by norm_num)
    unfold f32_exp
    have := le_max_left (Int.log 2 |x|) (-126)
    omega
  have h3 := lt_of_lt_of_le h1 h2
  simpa using h3

theorem f32_exp_le_abs (x : ℚ) (hx : x ≠ 0) (he : -126 < f32_exp x) : 2 ^ (f32_exp x) ≤ |x| := by
  have hlog : f32_exp x = Int.log 2 |x| := by
    unfold f32_exp at he ⊢
    rcases max_cases (Int.log 2 |x|) (-126) with ⟨h, -⟩ | ⟨h, -⟩
    · exact h
    · rw [h] at he; omega
  rw [hlog]
  have := Int.zpow_log_le_self (b := 2) (by norm_num) (abs_pos.mpr hx)
  simpa using this

theorem f32_exp_mono (x y : ℚ) (hx : x ≠ 0) (h : |x| ≤ |y|) : f32_exp x ≤ f32_exp y := by
  unfold f32_exp
  exact max_le_max (Int.log_mono_right (abs_pos.mpr hx) h) (le_refl _)

theorem round_f32_nonneg (x : ℚ) (hx : 0 ≤ x) : 0 ≤ round_f32 x := by
  unfold round_f32
  have hq := f32_quantum_pos x
  have h0 : round_half_even 0 ≤ round_half_even (x / f32_quantum x) :=
    round_half_even_mono _ _ (div_nonneg hx (le_of_lt hq))
  have hz : round_half_even 0 = 0 := by simpa using round_half_even_int 0
  rw [hz] at h0
  exact mul_nonneg (by exact_mod_cast h0) (le_of_lt hq)

theorem round_f32_nonpos (x : ℚ) (hx : x ≤ 0) : round_f32 x ≤ 0 := by
  unfold round_f32
  have hq := f32_quantum_pos x
  have h0 : round_half_even (x / f32_quantum x) ≤ round_half_even 0 :=
    round_half_even_mono _ _ (div_nonpos_of_nonpos_of_nonneg hx (le_of_lt hq))
  have hz : round_half_even 0 = 0 := by simpa using round_half_even_int 0
  rw [hz] at h0
  exact mul_nonpos_of_nonpos_of_nonneg (by exact_mod_cast h0) (le_of_lt hq)

/-- For positive `x`: the rounded value stays within the binade closure. -/
theorem round_f32_le_top (x : ℚ) (hx : 0 ≤ x) : round_f32 x ≤ 2 ^ (f32_exp x + 1) := by
  have hq := f32_quantum_pos x
  have hlt := abs_lt_f32_exp x
  rw [abs_of_nonneg hx, (two_zpow_split (f32_exp x)).2, ← f32_quantum_eq] at hlt
  have hy : x / f32_quantum x ≤ ((2 ^ 24 : ℤ) : ℚ) := by
    rw [div_le_iff₀ hq]; push_cast; exact le_of_lt hlt
  have hr := round_half_even_mono _ _ hy
  rw [round_half_even_int] at hr
  unfold round_f32
  rw [(two_zpow_split (f32_exp x)).2, ← f32_quantum_eq]
  have hrq : ((round_half_even (x / f32_quantum x) : ℤ) : ℚ) ≤ ((2 ^ 24 : ℤ) : ℚ) := by exact_mod_cast hr
  push_cast at hrq
  exact mul_le_mul_of_nonneg_right hrq (le_of_lt hq)

theorem round_f32_ge_bottom (x : ℚ) (hx : 0 < x) (he : -126 < f32_exp x) :
    2 ^ (f32_exp x) ≤ round_f32 x := by
  have hq := f32_quantum_pos x
  have hle := f32_exp_le_abs x (ne_of_gt hx) he
  rw [abs_of_pos hx, (two_zpow_split (f32_exp x)).1, ← f32_quantum_eq] at hle
  have hy : ((2 ^ 23 : ℤ) : ℚ) ≤ x / f32_quantum x := by
    rw [le_div_iff₀ hq]; push_cast; exact hle
  have hr := round_half_even_mono _ _ hy
  rw [round_half_even_int] at hr
  unfold round_f32
  rw [(two_zpow_split (f32_exp x)).1, ← f32_quantum_eq]
  have hrq : ((2 ^ 23 : ℤ) : ℚ) ≤ ((round_half_even (x / f32_quantum x) : ℤ) : ℚ) := by exact_mod_cast hr
  push_cast at hrq
  exact mul_le_mul_of_nonneg_right hrq (le_of_lt hq)

theorem round_f32_mono_pos (x y : ℚ) (hx : 0 < x) (hxy : x ≤ y) : round_f32 x ≤ round_f32 y := by
  have hy : 0 < y := lt_of_lt_of_le hx hxy
  have hexp := f32_exp_mono x y (ne_of_gt hx) (by rw [abs_of_pos hx, abs_of_pos hy]; exact hxy)
  rcases eq_or_lt_of_le hexp with heq | hlt
  · have hq : f32_quantum x = f32_quantum y := by rw [f32_quantum_eq, f32_quantum_eq, heq]
    unfold round_f32
    rw [hq]
    have hqpos := f32_quantum_pos y
    have := round_half_even_mono (x / f32_quantum y) (y / f32_quantum y)
      (div_le_div_of_nonneg_right hxy (le_of_lt hqpos))
    exact mul_le_mul_of_nonneg_right (by exact_mod_cast this) (le_of_lt hqpos)
  · have h1 := round_f32_le_top x (le_of_lt hx)
    have hmin : -126 ≤ f32_exp x := le_max_right _ _
    have h2 := round_f32_ge_bottom y hy (by omega)
    have h3 : (2 : ℚ) ^ (f32_exp x + 1) ≤ 2 ^ (f32_exp y) :=
      zpow_le_zpow_right₀ (by norm_num) (by omega)
    linarith


theorem round_f32_ge_neg_top (x : ℚ) (hx : x ≤ 0) : -2 ^ (f32_exp x + 1) ≤ round_f32 x := by
  have hq := f32_quantum_pos x
  have hlt := abs_lt_f32_exp x
  rw [abs_of_nonpos hx, (two_zpow_split (f32_exp x)).2, ← f32_quantum_eq] at hlt
  have hy : ((-(2 ^ 24) : ℤ) : ℚ) ≤ x / f32_quantum x := by
    rw [le_div_iff₀ hq]; push_cast; linarith
  have hr := round_half_even_mono _ _ hy
  rw [round_half_even_int] at hr
  unfold round_f32
  rw [(two_zpow_split (f32_exp x)).2, ← f32_quantum_eq]
  have hrq : ((-(2 ^ 24) : ℤ) : ℚ) ≤ ((round_half_even (x / f32_quantum x) : ℤ) : ℚ) := by
    exact_mod_cast hr
  push_cast at hrq
  have := mul_le_mul_of_nonneg_right hrq (le_of_lt hq)
  linarith

theorem round_f32_le_neg_bottom (x : ℚ) (hx : x < 0) (he : -126 < f32_exp x) :
    round_f32 x ≤ -2 ^ (f32_exp x) := by
  have hq := f32_quantum_pos x
  have hle := f32_exp_le_abs x (ne_of_lt hx) he
  rw [abs_of_neg hx, (two_zpow_split (f32_exp x)).1, ← f32_quantum_eq] at hle
  have hy : x / f32_quantum x ≤ ((-(2 ^ 23) : ℤ) : ℚ) := by
    rw [div_le_iff₀ hq]; push_cast; linarith
  have hr := round_half_even_mono _ _ hy
  rw [round_half_even_int] at hr
  unfold round_f32
  rw [(two_zpow_split (f32_exp x)).1, ← f32_quantum_eq]
  have hrq : ((round_half_even (x / f32_quantum x) : ℤ) : ℚ) ≤ ((-(2 ^ 23) : ℤ) : ℚ) := by
    exact_mod_cast hr
  push_cast at hrq
  have := mul_le_mul_of_nonneg_right hrq (le_of_lt hq)
  linarith

theorem round_f32_mono_neg (x y : ℚ) (hy : y < 0) (hxy : x ≤ y) : round_f32 x ≤ round_f32 y := by
  have hx : x < 0 := lt_of_le_of_lt hxy hy
  have hexp := f32_exp_mono y x (ne_of_lt hy) (by rw [abs_of_neg hx, abs_of_neg hy]; linarith)
  rcases eq_or_lt_of_le hexp with heq | hlt
  · have hq : f32_quantum x = f32_quantum y := by rw [f32_quantum_eq, f32_quantum_eq, heq]
    unfold round_f32
    rw [hq]
    have hqpos := f32_quantum_pos y
    have := round_half_even_mono (x / f32_quantum y) (y / f32_quantum y)
      (div_le_div_of_nonneg_right hxy (le_of_lt hqpos))
    exact mul_le_mul_of_nonneg_right (by exact_mod_cast this) (le_of_lt hqpos)
  · have h1 := round_f32_ge_neg_top y (le_of_lt hy)
    have hmin : -126 ≤ f32_exp y := le_max_right _ _
    have h2 := round_f32_le_neg_bottom x hx (by omega)
    have h3 : (2 : ℚ) ^ (f32_exp y + 1) ≤ 2 ^ (f32_exp x) :=
      zpow_le_zpow_right₀ (by norm_num) (by omega)
    linarith

/-- Rounding to binary32 is monotone. -/
theorem round_f32_mono (x y : ℚ) (hxy : x ≤ y) : round_f32 x ≤ round_f32 y := by
  rcases lt_trichotomy x 0 with hx | hx | hx
  · rcases lt_or_le y 0 with hy | hy
    · exact round_f32_mono_neg x y hy hxy
    · exact le_trans (round_f32_nonpos x (le_of_lt hx)) (round_f32_nonneg y hy)
  · rw [hx] at hxy ⊢
    exact le_trans (round_f32_nonpos 0 (le_refl 0)) (round_f32_nonneg y hxy)
  · exact round_f32_mono_pos x y hx hxy

/-- Evaluation of the rounding from the binade and the nearest multiple of the quantum. -/
theorem round_f32_zero : round_f32 0 = 0 := by
  have h1 := round_f32_nonneg 0 (le_refl 0)
  have h2 := round_f32_nonpos 0 (le_refl 0)
  exact le_antisymm h2 h1

theorem round_f32_of (x : ℚ) (e n : ℤ) (he : -126 ≤ e) (h1 : -126 < e → (2 : ℚ) ^ e ≤ |x|)
    (h2 : |x| < (2 : ℚ) ^ (e + 1)) (hn : |x / 2 ^ (e - 23) - n| < 1 / 2) :
    round_f32 x = n * 2 ^ (e - 23) := by
  by_cases hx : x = 0
  · subst hx
    have hn0 : n = 0 := by
      rw [zero_div, zero_sub, abs_neg, abs_lt] at hn
      have a : ((-1 : ℤ) : ℚ) < (n : ℚ) := by push_cast; linarith [hn.1]
      have b : (n : ℚ) < ((1 : ℤ) : ℚ) := by push_cast; linarith [hn.2]
      have a1 : (-1 : ℤ) < n := by exact_mod_cast a
      have b1 : n < (1 : ℤ) := by exact_mod_cast b
      omega
    rw [hn0, round_f32_zero]
    simp
  have hpos : 0 < |x| := abs_pos.mpr hx
  have b : Int.log 2 |x| < e + 1 :=
    (Int.lt_zpow_iff_log_lt (b := 2) (by norm_num) hpos).mp (by exact_mod_cast h2)
  have hexp : f32_exp x = e := by
    unfold f32_exp
    rcases eq_or_lt_of_le he with heq | hlt
    · rw [← heq] at b ⊢
      exact max_eq_right (by omega)
    · have a : e ≤ Int.log 2 |x| :=
        (Int.zpow_le_iff_le_log (b := 2) (by norm_num) hpos).mp (by exact_mod_cast h1 hlt)
      have : Int.log 2 |x| = e := by omega
      rw [this]
      exact max_eq_left he
  unfold round_f32
  rw [f32_quantum_eq, hexp, round_half_even_of_near _ n hn]

theorem round_f32_one : round_f32 1 = 1 := by
  rw [round_f32_of 1 0 (2 ^ 23) (by norm_num) (by norm_num) (by norm_num) (by norm_num)]
  norm_num

theorem round_f32_FLT_MIN : round_f32 FLT_MIN = FLT_MIN := by
  rw [round_f32_of FLT_MIN (-126) (2 ^ 23) (by norm_num) (by norm_num)
    (by rw [abs_of_pos (by norm_num [FLT_MIN])]; norm_num [FLT_MIN])
    (by norm_num [FLT_MIN])]
  norm_num [FLT_MIN]

theorem round_f32_one_add_FLT_MIN : round_f32 (1 + FLT_MIN) = 1 := by
  rw [round_f32_of (1 + FLT_MIN) 0 (2 ^ 23) (by norm_num)
    (by intro _; rw [abs_of_pos (by norm_num [FLT_MIN])]; norm_num [FLT_MIN])
    (by rw [abs_of_pos (by norm_num [FLT_MIN])]; norm_num [FLT_MIN])
    (by norm_num [FLT_MIN, abs_lt])]
  norm_num

theorem round_f32_FLT_MAX_add_FLT_MIN : round_f32 (FLT_MAX + FLT_MIN) = FLT_MAX := by
  rw [round_f32_of (FLT_MAX + FLT_MIN) 127 (2 ^ 24 - 1) (by norm_num)
    (by intro _; rw [abs_of_pos (by norm_num [FLT_MIN, FLT_MAX])]; norm_num [FLT_MIN, FLT_MAX])
    (by rw [abs_of_pos (by norm_num [FLT_MIN, FLT_MAX])]; norm_num [FLT_MIN, FLT_MAX])
    (by norm_num [FLT_MIN, FLT_MAX, abs_lt])]
  norm_num [FLT_MAX]

theorem round_f32_two_FLT_MAX : round_f32 (FLT_MAX + FLT_MAX) = 2 * FLT_MAX := by
  rw [round_f32_of (FLT_MAX + FLT_MAX) 128 (2 ^ 24 - 1) (by norm_num)
    (by intro _; rw [abs_of_pos (by norm_num [FLT_MAX])]; norm_num [FLT_MAX])
    (by rw [abs_of_pos (by norm_num [FLT_MAX])]; norm_num [FLT_MAX])
    (by norm_num [FLT_MAX, abs_lt])]
  norm_num [FLT_MAX]

theorem round_f32_min_subnormal : round_f32 (2 ^ (-149 : ℤ)) = 2 ^ (-149 : ℤ) := by
  rw [round_f32_of (2 ^ (-149 : ℤ)) (-126) 1 (by norm_num) (by norm_num)
    (by rw [abs_of_pos (by positivity)]; norm_num)
    (by norm_num)]
  norm_num

/-- Every value that rounding leaves alone is an integer multiple of `2^-149`. -/
theorem f32_value_multiple (x : ℚ) (hx : round_f32 x = x) :
    ∃ z : ℤ, x = (z : ℚ) * 2 ^ (-149 : ℤ) := by
  have hmin : -126 ≤ f32_exp x := le_max_right _ _
  obtain ⟨m, hm⟩ : ∃ m : ℕ, f32_exp x - 23 = (m : ℤ) + (-149) :=
    ⟨(f32_exp x + 126).toNat, by omega⟩
  refine ⟨round_half_even (x / f32_quantum x) * 2 ^ m, ?_⟩
  have hq : f32_quantum x = 2 ^ m * 2 ^ (-149 : ℤ) := by
    rw [f32_quantum_eq, hm, zpow_add₀ (by norm_num : (2 : ℚ) ≠ 0), zpow_natCast]
  have hx2 : x = (round_half_even (x / f32_quantum x) : ℚ) * f32_quantum x := hx.symm
  push_cast
  rw [mul_assoc, ← hq]
  exact hx2

/-- The difference of two distinct binary32 values does not round to zero. -/
theorem round_f32_sub_pos (x y : ℚ) (hx : round_f32 x = x) (hy : round_f32 y = y)
    (hxy : x < y) : 0 < round_f32 (y - x) := by
  obtain ⟨zx, hzx⟩ := f32_value_multiple x hx
  obtain ⟨zy, hzy⟩ := f32_value_multiple y hy
  have hu : (0 : ℚ) < 2 ^ (-149 : ℤ) := by positivity
  have hz : zx < zy := by
    have : (zx : ℚ) * 2 ^ (-149 : ℤ) < (zy : ℚ) * 2 ^ (-149 : ℤ) := by rw [← hzx, ← hzy]; exact hxy
    have := lt_of_mul_lt_mul_right this (le_of_lt hu)
    exact_mod_cast this
  have hz1 : ((1 : ℤ) : ℚ) ≤ ((zy - zx : ℤ) : ℚ) := by exact_mod_cast (by omega : 1 ≤ zy - zx)
  have hge : 2 ^ (-149 : ℤ) ≤ y - x := by
    rw [hzx, hzy, ← sub_mul]
    push_cast at hz1
    calc (2 : ℚ) ^ (-149 : ℤ) = 1 * 2 ^ (-149 : ℤ) := by ring
      _ ≤ ((zy : ℚ) - zx) * 2 ^ (-149 : ℤ) := mul_le_mul_of_nonneg_right hz1 (le_of_lt hu)
  have := round_f32_mono _ _ hge
  rw [round_f32_min_subnormal] at this
  exact lt_of_lt_of_le hu this

/-! ## `normalize_float` -/

theorem float_op_of_le (x : ℚ) (hx : |round_f32 x| ≤ FLT_MAX) :
    float_op x = some (round_f32 x) := by
  unfold float_op
  rw [if_neg (not_lt.mpr hx)]

theorem float_op_of_gt (x : ℚ) (hx : FLT_MAX < |round_f32 x|) : float_op x = none := by
  unfold float_op
  rw [if_pos hx]

/-- Closed form of the rounded rescaling loop when the range is not zero and no operation
overflows. -/
theorem normalize_rescale_float_of_finite (mn range : ℚ) (im : ℕ → ℚ) (k : ℕ)
    (hr : range ≠ 0) (hd : ∀ j, j < k → |round_f32 (im j - mn)| ≤ FLT_MAX)
    (hq : ∀ j, j < k → |round_f32 (round_f32 (im j - mn) / range)| ≤ FLT_MAX) :
    normalize_rescale_float mn range im k
      = some (fun j => if j < k then round_f32 (round_f32 (im j - mn) / range) else im j) := by
  induction k with
  | zero => simp [normalize_rescale_float]
  | succ k ih =>
    have ih1 := ih (fun j hj => hd j (Nat.lt_succ_of_lt hj))
      (fun j hj => hq j (Nat.lt_succ_of_lt hj))
    simp only [normalize_rescale_float, ih1, Option.some_bind, lt_irrefl, if_false,
      float_op_of_le _ (hd k (Nat.lt_succ_self k)), if_neg hr,
      float_op_of_le _ (hq k (Nat.lt_succ_self k)), Option.map_some']
    congr 1
    funext j
    by_cases hjk : j = k
    · subst hjk
      simp
    · rw [Function.update_noteq hjk]
      by_cases hlt : j < k
      · simp [hlt, Nat.lt_succ_of_lt hlt]
      · have : ¬ j < k + 1 := by omega
        simp [hlt, this]

theorem one_le_FLT_MAX : (1 : ℚ) ≤ FLT_MAX := by norm_num [FLT_MAX]

/-- When the rounded range is positive and finite, `normalize_float` returns the image of
the rounded quotients, all of which lie in [0, 1]. -/
theorem normalize_float_of_range_pos (w h : ℕ) (im : ℕ → ℚ)
    (hpos : 0 < round_f32 ((normalize_scan im (npix w h)).1 - (normalize_scan im (npix w h)).2))
    (hfin : round_f32 ((normalize_scan im (npix w h)).1 - (normalize_scan im (npix w h)).2)
      ≤ FLT_MAX) :
    normalize_float w h im = some (fun j =>
        if j < npix w h then
          round_f32 (round_f32 (im j - (normalize_scan im (npix w h)).2)
            / round_f32 ((normalize_scan im (npix w h)).1 - (normalize_scan im (npix w h)).2))
        else im j)
      ∧ ∀ j, j < npix w h →
          0 ≤ round_f32 (round_f32 (im j - (normalize_scan im (npix w h)).2)
            / round_f32 ((normalize_scan im (npix w h)).1 - (normalize_scan im (npix w h)).2))
          ∧ round_f32 (round_f32 (im j - (normalize_scan im (npix w h)).2)
            / round_f32 ((normalize_scan im (npix w h)).1 - (normalize_scan im (npix w h)).2))
            ≤ 1 := by
  have hd : ∀ j, j < npix w h →
      0 ≤ round_f32 (im j - (normalize_scan im (npix w h)).2)
        ∧ round_f32 (im j - (normalize_scan im (npix w h)).2)
          ≤ round_f32 ((normalize_scan im (npix w h)).1 - (normalize_scan im (npix w h)).2) := by
    intro j hj
    have h1 := normalize_scan_max_ge im (npix w h) j hj
    have h2 := normalize_scan_min_le im (npix w h) j hj
    exact ⟨round_f32_nonneg _ (by linarith), round_f32_mono _ _ (by linarith)⟩
  have hq : ∀ j, j < npix w h →
      0 ≤ round_f32 (round_f32 (im j - (normalize_scan im (npix w h)).2)
            / round_f32 ((normalize_scan im (npix w h)).1 - (normalize_scan im (npix w h)).2))
        ∧ round_f32 (round_f32 (im j - (normalize_scan im (npix w h)).2)
            / round_f32 ((normalize_scan im (npix w h)).1 - (normalize_scan im (npix w h)).2))
          ≤ 1 := by
    intro j hj
    obtain ⟨d0, d1⟩ := hd j hj
    constructor
    · exact round_f32_nonneg _ (div_nonneg d0 (le_of_lt hpos))
    · have := round_f32_mono _ 1 ((div_le_one hpos).mpr d1)
      rw [round_f32_one] at this
      exact this
  refine ⟨?_, hq⟩
  unfold normalize_float
  simp only [float_op_of_le _ (by rw [abs_of_pos hpos]; exact hfin), Option.some_bind]
  apply normalize_rescale_float_of_finite _ _ im _ (ne_of_gt hpos)
  · intro j hj
    obtain ⟨d0, d1⟩ := hd j hj
    rw [abs_of_nonneg d0]
    exact le_trans d1 hfin
  · intro j hj
    obtain ⟨q0, q1⟩ := hq j hj
    rw [abs_of_nonneg q0]
    exact le_trans q1 one_le_FLT_MAX

theorem round_f32_neg_one : round_f32 (-1) = -1 := by
  rw [round_f32_of (-1) 0 (-(2 ^ 23)) (by norm_num) (by norm_num) (by norm_num) (by norm_num)]
  norm_num

/-- On an image of binary32 values the minimum found by the scan is one of the pixels. -/
theorem normalize_scan_min_is_pixel (im : ℕ → ℚ) (k : ℕ) (hk : 0 < k)
    (hfin : ∀ j, j < k → im j ≤ FLT_MAX) :
    ∃ j, j < k ∧ (normalize_scan im k).2 = im j := by
  rcases normalize_scan_min_attained im k with h0 | hj
  · exact ⟨0, hk, le_antisymm (normalize_scan_min_le im k 0 hk) (by rw [h0]; exact hfin 0 hk)⟩
  · exact hj

/-- C18, as amended. On a non-empty image of finite binary32 values, with the arithmetic of
`normalize` rounded to binary32: the maximum computed is the larger of `FLT_MIN` and the
largest pixel. When the image is not uniform, its largest pixel is at least `FLT_MIN` and the
range `max - min` does not overflow, the result has a pixel 0, a pixel 1 and all pixels in
[0, 1]. When every pixel is below `FLT_MIN`, `normalize` returns an image whose pixels are
all at most 1 (and at least 0). -/
theorem normalize_float_max_starts_at_FLT_MIN (w h : ℕ) (im : ℕ → ℚ) (hk : 0 < npix w h)
    (hfl : ∀ j, j < npix w h → round_f32 (im j) = im j ∧ -FLT_MAX ≤ im j ∧ im j ≤ FLT_MAX) :
    (FLT_MIN ≤ (normalize_scan im (npix w h)).1
        ∧ (∀ j, j < npix w h → im j ≤ (normalize_scan im (npix w h)).1)
        ∧ ((normalize_scan im (npix w h)).1 = FLT_MIN
            ∨ ∃ j, j < npix w h ∧ (normalize_scan im (npix w h)).1 = im j))
      ∧ ((∃ a b, a < npix w h ∧ b < npix w h ∧ im a ≠ im b) →
          (∃ b, b < npix w h ∧ FLT_MIN ≤ im b) →
          round_f32 ((normalize_scan im (npix w h)).1 - (normalize_scan im (npix w h)).2)
            ≤ FLT_MAX →
          ∃ out, normalize_float w h im = some out
            ∧ (∃ j, j < npix w h ∧ out j = 0)
            ∧ (∃ j, j < npix w h ∧ out j = 1)
            ∧ ∀ j, j < npix w h → 0 ≤ out j ∧ out j ≤ 1)
      ∧ ((∀ j, j < npix w h → im j < FLT_MIN) →
          ∃ out, normalize_float w h im = some out
            ∧ ∀ j, j < npix w h → 0 ≤ out j ∧ out j ≤ 1) := by
  obtain ⟨jm, hjm, hmval⟩ := normalize_scan_min_is_pixel im (npix w h) hk
    (fun j hj => (hfl j hj).2.2)
  have hmrep : round_f32 (normalize_scan im (npix w h)).2 = (normalize_scan im (npix w h)).2 := by
    rw [hmval]
    exact (hfl jm hjm).1
  have hMrep : round_f32 (normalize_scan im (npix w h)).1 = (normalize_scan im (npix w h)).1 := by
    rcases normalize_scan_max_attained im (npix w h) with h0 | ⟨j, hj, hval⟩
    · rw [h0]
      exact round_f32_FLT_MIN
    · rw [hval]
      exact (hfl j hj).1
  refine ⟨⟨normalize_scan_max_ge_FLT_MIN im _, fun j hj => normalize_scan_max_ge im _ j hj,
    normalize_scan_max_attained im _⟩, ?_, ?_⟩
  · rintro ⟨x, y, hx, hy, hxy⟩ ⟨b, hb, hbF⟩ hfin
    obtain ⟨c, d, hc, hd, hcd⟩ : ∃ c d, c < npix w h ∧ d < npix w h ∧ im c < im d := by
      rcases lt_or_gt_of_ne hxy with hlt | hgt
      · exact ⟨x, y, hx, hy, hlt⟩
      · exact ⟨y, x, hy, hx, hgt⟩
    have hlt : (normalize_scan im (npix w h)).2 < (normalize_scan im (npix w h)).1 :=
      lt_of_le_of_lt (normalize_scan_min_le im _ c hc)
        (lt_of_lt_of_le hcd (normalize_scan_max_ge im _ d hd))
    have hpos := round_f32_sub_pos _ _ hmrep hMrep hlt
    obtain ⟨hout, hunit⟩ := normalize_float_of_range_pos w h im hpos hfin
    obtain ⟨jM, hjM, hMval⟩ : ∃ j, j < npix w h ∧ (normalize_scan im (npix w h)).1 = im j := by
      rcases normalize_scan_max_attained im (npix w h) with h0 | hj
      · exact ⟨b, hb, le_antisymm (by rw [h0]; exact hbF) (normalize_scan_max_ge im _ b hb)⟩
      · exact hj
    refine ⟨_, hout, ⟨jm, hjm, ?_⟩, ⟨jM, hjM, ?_⟩, ?_⟩
    · simp only [hjm, if_true]
      rw [← hmval, sub_self, round_f32_zero, zero_div, round_f32_zero]
    · simp only [hjM, if_true]
      rw [← hMval, div_self (ne_of_gt hpos), round_f32_one]
    · intro j hj
      simp only [hj, if_true]
      exact hunit j hj
  · intro hall
    have hM : (normalize_scan im (npix w h)).1 = FLT_MIN := by
      rcases normalize_scan_max_attained im (npix w h) with h0 | ⟨j, hj, hval⟩
      · exact h0
      · have h1 := normalize_scan_max_ge_FLT_MIN im (npix w h)
        have h2 := hall j hj
        rw [hval] at h1
        exact absurd h2 (not_lt.mpr h1)
    have hlt : (normalize_scan im (npix w h)).2 < (normalize_scan im (npix w h)).1 := by
      rw [hM, hmval]
      exact hall jm hjm
    have hpos := round_f32_sub_pos _ _ hmrep hMrep hlt
    have hfin : round_f32 ((normalize_scan im (npix w h)).1 - (normalize_scan im (npix w h)).2)
        ≤ FLT_MAX := by
      have hle : (normalize_scan im (npix w h)).1 - (normalize_scan im (npix w h)).2
          ≤ FLT_MAX + FLT_MIN := by
        rw [hM, hmval]
        have := (hfl jm hjm).2.1
        linarith
      have := round_f32_mono _ _ hle
      rw [round_f32_FLT_MAX_add_FLT_MIN] at this
      exact this
    obtain ⟨hout, hunit⟩ := normalize_float_of_range_pos w h im hpos hfin
    refine ⟨_, hout, ?_⟩
    intro j hj
    simp only [hj, if_true]
    exact hunit j hj

/-- C18 as amended, instance: on the 2 x 1 image `[-1, 0]`, whose pixels are below `FLT_MIN`,
the rounded `normalize` returns an image with both pixels in [0, 1]; on the 2 x 1 image
`[0, 1]` it returns an image with a pixel 0 and a pixel 1. -/
theorem normalize_float_max_starts_at_FLT_MIN_witness :
    (∃ out, normalize_float 2 1 (ofList [-1, 0]) = some out
        ∧ ∀ j, j < npix 2 1 → 0 ≤ out j ∧ out j ≤ 1)
      ∧ ∃ out, normalize_float 2 1 (ofList [0, 1]) = some out
          ∧ (∃ j, j < npix 2 1 ∧ out j = 0)
          ∧ (∃ j, j < npix 2 1 ∧ out j = 1)
          ∧ ∀ j, j < npix 2 1 → 0 ≤ out j ∧ out j ≤ 1 := by
  have hs : normalize_scan (ofList [0, 1]) 2 = (1, 0) := by
    norm_num [normalize_scan, ofList, FLT_MIN, FLT_MAX]
  constructor
  · exact (normalize_float_max_starts_at_FLT_MIN 2 1 (ofList [-1, 0]) (by norm_num [npix])
      (by
        intro j hj
        rw [npix_2_1] at hj
        interval_cases j
        · exact ⟨by simpa [ofList] using round_f32_neg_one, by norm_num [ofList, FLT_MAX],
            by norm_num [ofList, FLT_MAX]⟩
        · exact ⟨by simpa [ofList] using round_f32_zero, by norm_num [ofList, FLT_MAX],
            by norm_num [ofList, FLT_MAX]⟩)).2.2
      (by
        intro j hj
        rw [npix_2_1] at hj
        interval_cases j <;> norm_num [ofList, FLT_MIN])
  · exact (normalize_float_max_starts_at_FLT_MIN 2 1 (ofList [0, 1]) (by norm_num [npix])
      (by
        intro j hj
        rw [npix_2_1] at hj
        interval_cases j
        · exact ⟨by simpa [ofList] using round_f32_zero, by norm_num [ofList, FLT_MAX],
            by norm_num [ofList, FLT_MAX]⟩
        · exact ⟨by simpa [ofList] using round_f32_one, by norm_num [ofList, FLT_MAX],
            by norm_num [ofList, FLT_MAX]⟩)).2.1
      ⟨0, 1, by norm_num [npix], by norm_num [npix], by norm_num [ofList]⟩
      ⟨1, by norm_num [npix], by norm_num [ofList, FLT_MIN]⟩
      (by
        rw [npix_2_1, hs]
        simp only [sub_zero, round_f32_one]
        exact one_le_FLT_MAX)

/-- C18, as stated, fails. On the 2 x 1 image `[-1, 0]` both pixels are below `FLT_MIN`; the
range `FLT_MIN + 1` rounds to 1 and the result is `[0, 1]`, whose largest pixel is 1, not
below 1. On the 2 x 1 image `[-FLT_MAX, FLT_MAX]`, which is not uniform and has a pixel of
at least `FLT_MIN`, the range overflows and the result has no pixel 1. -/
theorem normalize_float_rounds_to_one :
    ofList [-1, 0] 0 < FLT_MIN ∧ ofList [-1, 0] 1 < FLT_MIN
      ∧ (normalize_float 2 1 (ofList [-1, 0])).map (fun out => pixels out 2) = some [0, 1]
      ∧ FLT_MIN ≤ ofList [-FLT_MAX, FLT_MAX] 1
      ∧ ofList [-FLT_MAX, FLT_MAX] 0 ≠ ofList [-FLT_MAX, FLT_MAX] 1
      ∧ normalize_float 2 1 (ofList [-FLT_MAX, FLT_MAX]) = none := by
  have hs : normalize_scan (ofList [-1, 0]) 2 = (FLT_MIN, -1) := by
    norm_num [normalize_scan, ofList, FLT_MIN, FLT_MAX]
  have hR : round_f32 (FLT_MIN - -1) = 1 := by
    rw [show FLT_MIN - -1 = 1 + FLT_MIN by ring]
    exact round_f32_one_add_FLT_MIN
  have hs2 : normalize_scan (ofList [-FLT_MAX, FLT_MAX]) 2 = (FLT_MAX, -FLT_MAX) := by
    norm_num [normalize_scan, ofList, FLT_MIN, FLT_MAX]
  refine ⟨by norm_num [ofList, FLT_MIN], by norm_num [ofList, FLT_MIN], ?_,
    by norm_num [ofList, FLT_MIN, FLT_MAX], by norm_num [ofList, FLT_MAX], ?_⟩
  · have hout := (normalize_float_of_range_pos 2 1 (ofList [-1, 0])
      (by rw [npix_2_1, hs, hR]; norm_num)
      (by rw [npix_2_1, hs, hR]; exact one_le_FLT_MAX)).1
    rw [hout, npix_2_1, hs, hR]
    simp only [Option.map_some', pixels, List.range_succ, List.range_zero, List.nil_append,
      List.map_append, List.map_cons, List.map_nil, List.singleton_append]
    have e0 : ofList [-1, 0] 0 - -1 = 0 := by norm_num [ofList]
    have e1 : ofList [-1, 0] 1 - -1 = 1 := by norm_num [ofList]
    simp only [Nat.lt_succ_self, Nat.zero_lt_succ, if_true, e0, e1, round_f32_zero,
      round_f32_one, zero_div, div_one]
  · unfold normalize_float
    rw [npix_2_1, hs2]
    simp only
    rw [float_op_of_gt _ (by
      rw [show FLT_MAX - -FLT_MAX = FLT_MAX + FLT_MAX by ring, round_f32_two_FLT_MAX]
      norm_num [FLT_MAX])]
    rfl

/-! ## The pixels of `blind_quarter_init_image` -/

/-- With the conversions and the division rounded to `float`, the stored pixel still lies
in [0, 1], and is 1 when the draw is `RAND_MAX`. -/
theorem init_pixel_float_unit (r RAND_MAX : ℕ) (hR : 0 < RAND_MAX) (hr : r ≤ RAND_MAX) :
    0 ≤ init_pixel_float r RAND_MAX ∧ init_pixel_float r RAND_MAX ≤ 1
      ∧ (r = RAND_MAX → init_pixel_float r RAND_MAX = 1) := by
  have hR1 : (1 : ℚ) ≤ (RAND_MAX : ℚ) := by exact_mod_cast hR
  have hrq : (r : ℚ) ≤ (RAND_MAX : ℚ) := by exact_mod_cast hr
  have hden : 0 < round_f32 (RAND_MAX : ℚ) := by
    have := round_f32_mono _ _ hR1
    rw [round_f32_one] at this
    linarith
  have hnum0 : 0 ≤ round_f32 (r : ℚ) := round_f32_nonneg _ (Nat.cast_nonneg r)
  have hnum1 : round_f32 (r : ℚ) ≤ round_f32 (RAND_MAX : ℚ) := round_f32_mono _ _ hrq
  unfold init_pixel_float
  refine ⟨round_f32_nonneg _ (div_nonneg hnum0 (le_of_lt hden)), ?_, ?_⟩
  · have := round_f32_mono _ 1 ((div_le_one hden).mpr hnum1)
    rw [round_f32_one] at this
    exact this
  · intro heq
    rw [heq, div_self (ne_of_gt hden), round_f32_one]

/-- With `RAND_MAX = 2^31 - 1`, the draw `2^31 - 2` is below `RAND_MAX` and both convert to
the `float` `2^31`: the stored pixel is 1. -/
theorem init_pixel_float_rounds_to_one :
    init_pixel_float (2 ^ 31 - 2) (2 ^ 31 - 1) = 1 := by
  have h1 : round_f32 (((2 ^ 31 - 2 : ℕ) : ℚ)) = 2 ^ 31 := by
    rw [round_f32_of _ 30 (2 ^ 24) (by norm_num) (by norm_num) (by norm_num)
      (by norm_num [abs_lt])]
    norm_num
  have h2 : round_f32 (((2 ^ 31 - 1 : ℕ) : ℚ)) = 2 ^ 31 := by
    rw [round_f32_of _ 30 (2 ^ 24) (by norm_num) (by norm_num) (by norm_num)
      (by norm_num [abs_lt])]
    norm_num
  unfold init_pixel_float
  rw [h1, h2, div_self (by norm_num), round_f32_one]

/-- C14, as amended. When the draw for pixel `j` is `r` with `r ≤ RAND_MAX`, the pixel that
`blind_quarter_init_image` stores lies in the closed interval [0, 1]: it is at least 0 and
at most 1, and it is exactly 1 when `r = RAND_MAX`. The same holds of `r / RAND_MAX`
computed with the conversions and the division rounded to `float`. -/
theorem init_image_pixel_closed_unit (rand : ℕ → ℕ × ℕ) (RAND_MAX now w h : ℕ)
    (im : ℕ → ℚ) (g j r : ℕ) (hR : 0 < RAND_MAX) (hj : j < npix w h)
    (hdraw : (rand (init_loop rand RAND_MAX im now j).2).1 = r) (hr : r ≤ RAND_MAX) :
    0 ≤ (blind_quarter_init_image rand RAND_MAX now w h im g).1 j
      ∧ (blind_quarter_init_image rand RAND_MAX now w h im g).1 j ≤ 1
      ∧ (r = RAND_MAX → (blind_quarter_init_image rand RAND_MAX now w h im g).1 j = 1)
      ∧ 0 ≤ init_pixel_float r RAND_MAX
      ∧ init_pixel_float r RAND_MAX ≤ 1
      ∧ (r = RAND_MAX → init_pixel_float r RAND_MAX = 1) := by
  have hpix : (blind_quarter_init_image rand RAND_MAX now w h im g).1 j
      = (r : ℚ) / (RAND_MAX : ℚ) := by
    unfold blind_quarter_init_image
    rw [init_loop_pixel rand RAND_MAX im now (npix w h) j hj, hdraw]
  have hRq : (0 : ℚ) < (RAND_MAX : ℚ) := by exact_mod_cast hR
  have hrq : (r : ℚ) ≤ (RAND_MAX : ℚ) := by exact_mod_cast hr
  obtain ⟨f0, f1, f2⟩ := init_pixel_float_unit r RAND_MAX hR hr
  rw [hpix]
  refine ⟨div_nonneg (Nat.cast_nonneg r) (le_of_lt hRq), ?_, ?_, f0, f1, f2⟩
  · rw [div_le_one hRq]
    exact hrq
  · intro heq
    rw [heq]
    exact div_self (ne_of_gt hRq)

/-- C14 as amended, instance: the counter generator seeded with the clock value 100 draws
101 for pixel 1 of a 2 x 1 image; with `RAND_MAX = 32767` that pixel lies in [0, 1], also
when computed in `float`. -/
theorem init_image_pixel_closed_unit_witness :
    0 ≤ (blind_quarter_init_image counter_rand 32767 100 2 1 (fun _ => 5) 0).1 1
      ∧ (blind_quarter_init_image counter_rand 32767 100 2 1 (fun _ => 5) 0).1 1 ≤ 1
      ∧ 0 ≤ init_pixel_float 101 32767
      ∧ init_pixel_float 101 32767 ≤ 1 := by
  have hw := init_image_pixel_closed_unit counter_rand 32767 100 2 1 (fun _ => 5) 0 1 101
    (by decide) (by norm_num [npix]) (by norm_num [init_loop, counter_rand]) (by decide)
  exact ⟨hw.1, hw.2.1, hw.2.2.2.1, hw.2.2.2.2.1⟩

end BlindQuarter
